import Mathlib

/-!
Verification development for the idea.ai mind-map reconciler.

This file gives a shallow embedding of the TypeScript sources:
  - src/src/lib/store.ts           (graph store: setMindMapFromJSON, deleteNode)
  - src/src/services/ai.ts         (V50 response parser parseAIResponse)
  - src/unnamed/part_004           (V53 parser variant: contextual anchor selection)
  - src/unnamed/part_006           (ChatPanel processAIResponse: suggestion sanitizing)
and proves the frozen claims about them.

JavaScript particulars mirrored by the embedding:
  - JS string truthiness: a string is falsy iff it is empty, so
    x || y is modelled as (if x = "" then y else x) for strings.
  - JS Map get and set: modelled as an association list with insertion at the
    front and first-match lookup, so a later set shadows an earlier one,
    exactly like Map.prototype.set followed by Map.prototype.get.
  - JS Set: modelled as a list used only through membership and
    first-occurrence deduplication.
  - Date.now() and Math.random(): modelled by an explicit FreshSrc parameter
    supplying the timestamp, random id suffixes and random positions.
  - Numeric scores in the V53 parser (sums of 1 and 0.5 divided by a token
    count, compared with 0.35): modelled with rationals.  All produced score
    values are of the form q / n with q a multiple of 1/2 and n a small token
    count; for such values the IEEE double comparisons performed by the
    source agree with the rational comparisons used here.
-/

namespace IdeaAi

/-- Character-list substring test: sub occurs contiguously in l. -/
def listIsInfix (sub : List Char) : List Char → Bool
  | [] => sub.isPrefixOf []
  | c :: t => sub.isPrefixOf (c :: t) || listIsInfix sub t

/-- JS s.includes(sub): substring containment test. -/
def strIncludes (s sub : String) : Bool :=
  listIsInfix sub.data s.data

/-! String primitives are implemented over the underlying character lists so
that they compute by kernel reduction; they have the semantics of the
JavaScript operations the source uses. -/

def strLower (s : String) : String :=
  ⟨s.data.map Char.toLower⟩

def strTrim (s : String) : String :=
  ⟨((s.data.dropWhile Char.isWhitespace).reverse.dropWhile Char.isWhitespace).reverse⟩

def strStartsWith (s p : String) : Bool :=
  p.data.isPrefixOf s.data

def strEndsWith (s p : String) : Bool :=
  p.data.reverse.isPrefixOf s.data.reverse

def strDrop (s : String) (n : Nat) : String :=
  ⟨s.data.drop n⟩

def strDropRight (s : String) (n : Nat) : String :=
  ⟨s.data.take (s.data.length - n)⟩

def strTake (s : String) (n : Nat) : String :=
  ⟨s.data.take n⟩

def strDropWhile (p : Char → Bool) (s : String) : String :=
  ⟨s.data.dropWhile p⟩

/-- Split a character list at every separator character; empty segments are
kept, as JS String.prototype.split does for a single-character separator. -/
def splitChPred (p : Char → Bool) : List Char → List (List Char)
  | [] => [[]]
  | c :: t =>
    let r := splitChPred p t
    if p c then [] :: r
    else
      match r with
      | [] => [[c]]
      | h :: t2 => (c :: h) :: t2

def strSplitPred (p : Char → Bool) (s : String) : List String :=
  (splitChPred p s.data).map String.mk

def strSplitOnChar (sep : Char) (s : String) : List String :=
  strSplitPred (fun c => c == sep) s

/-- The de-duplication key of store.ts: String(label).toLowerCase().trim(). -/
def normLabel (s : String) : String :=
  strTrim (strLower s)

/-! ## Data model (store.ts) -/

structure NodeData where
  label : String
  description : String
  imageUrl : Option String
deriving Repr, DecidableEq

structure Node where
  id : String
  position : Int × Int
  data : NodeData
  type : String
deriving Repr, DecidableEq

structure Edge where
  id : String
  source : String
  target : String
deriving Repr, DecidableEq

structure MapState where
  nodes : List Node
  edges : List Edge
deriving Repr, DecidableEq

/-- A proposed node of the mapData argument of setMindMapFromJSON.
Absent JSON fields are modelled as the empty string (resp. none), which
behaves identically under the truthiness tests the source performs. -/
structure PropNode where
  id : String
  label : String
  description : String
  imageUrl : Option String
deriving Repr, DecidableEq

structure PropEdge where
  source : String
  target : String
deriving Repr, DecidableEq

structure NodeUpdate where
  id : String
  description : String
deriving Repr, DecidableEq

structure MapData where
  nodes : List PropNode
  edges : List PropEdge
  nodeUpdates : List NodeUpdate
deriving Repr, DecidableEq

/-- Sources of the impure values used by setMindMapFromJSON:
now models Date.now(), rand models the Math.random id suffix for the
new node of a given proposal index, pos models the random initial position. -/
structure FreshSrc where
  now : Nat
  rand : Nat → String
  pos : Nat → Int × Int

/-- The id minted for a genuinely new node at proposal index idx:
node-${Date.now()}-${index}-${Math.random().toString(36).substr(2,5)}. -/
def newIdAt (fs : FreshSrc) (idx : Nat) : String :=
  "node-" ++ toString fs.now ++ "-" ++ toString idx ++ "-" ++ fs.rand idx

/-- new Map(currentNodes.map(n => [n.id, n])): later list entries shadow
earlier ones, hence the reverse so that List.lookup finds the last. -/
def byIdMap (nodes : List Node) : List (String × Node) :=
  (nodes.map (fun n => (n.id, n))).reverse

/-- new Map(currentNodes.map(n => [normalize(label), n])). -/
def byLabelMap (nodes : List Node) : List (String × Node) :=
  (nodes.map (fun n => (normLabel n.data.label, n))).reverse

/-- V38 nodeUpdates pass: for each update whose id matches an existing node
and whose description is truthy, push the node with the new description. -/
def initUpdates (byId : List (String × Node)) (updates : List NodeUpdate) : List Node :=
  updates.foldl (fun acc u =>
    match List.lookup u.id byId with
    | some ex =>
        if u.description ≠ "" then
          acc ++ [{ ex with data := { ex.data with description := u.description } }]
        else acc
    | none => acc) []

/-- Mutable state of the mapData.nodes.forEach loop of setMindMapFromJSON. -/
structure MergeAcc where
  updated : List Node
  newNodes : List Node
  idMap : List (String × String)
  byLabel : List (String × Node)
deriving Repr

/-- One iteration of the mapData.nodes.forEach loop (store.ts lines 197-259). -/
def processNode (fs : FreshSrc) (byId : List (String × Node))
    (acc : MergeAcc) (idx : Nat) (n : PropNode) : MergeAcc :=
  let lbl := normLabel n.label
  if lbl = "" then acc
  else
    let existingByLabel := List.lookup lbl acc.byLabel
    let labelOrNewBranch : MergeAcc :=
      match existingByLabel with
      | some ex =>
          let acc1 := { acc with idMap := (n.id, ex.id) :: acc.idMap }
          if n.description ≠ "" ∧ n.description ≠ ex.data.description ∧
              ¬ acc.updated.any (fun un => un.id == ex.id) then
            { acc1 with updated := acc1.updated ++
                [{ ex with data := { ex.data with description := n.description } }] }
          else acc1
      | none =>
          let newId := newIdAt fs idx
          { acc with
            idMap := (n.id, newId) :: acc.idMap,
            newNodes := acc.newNodes ++
              [{ id := newId, position := fs.pos idx,
                 data := { label := n.label, description := n.description,
                           imageUrl := n.imageUrl },
                 type := "expandable" }],
            byLabel := (lbl,
              { id := newId, position := (0, 0),
                data := { label := n.label, description := n.description,
                          imageUrl := none },
                type := "" }) :: acc.byLabel }
    if n.id = "root" then
      match List.lookup n.id byId with
      | some ex =>
          { acc with
            updated := acc.updated ++
              [{ ex with data := { ex.data with
                   label := if n.label = "" then ex.data.label else n.label,
                   description := if n.description = "" then ex.data.description
                                  else n.description } }],
            idMap := (n.id, n.id) :: acc.idMap }
      | none => labelOrNewBranch
    else labelOrNewBranch

/-- The whole mapData.nodes.forEach loop. -/
def processNodes (fs : FreshSrc) (byId : List (String × Node))
    (init : MergeAcc) (ns : List PropNode) : MergeAcc :=
  ns.enum.foldl (fun acc p => processNode fs byId acc p.1 p.2) init

def mergeAccOf (fs : FreshSrc) (st : MapState) (md : MapData) : MergeAcc :=
  processNodes fs (byIdMap st.nodes)
    { updated := initUpdates (byIdMap st.nodes) md.nodeUpdates,
      newNodes := [], idMap := [], byLabel := byLabelMap st.nodes }
    md.nodes

/-- mergedNodes = [...unchangedNodes, ...updatedNodes, ...newNodes]. -/
def mergedNodesOf (fs : FreshSrc) (st : MapState) (md : MapData) : List Node :=
  let acc := mergeAccOf fs st md
  let updatedIds := acc.updated.map (·.id)
  st.nodes.filter (fun n => ¬ updatedIds.contains n.id) ++ acc.updated ++ acc.newNodes

def allIdsOf (fs : FreshSrc) (st : MapState) (md : MapData) : List String :=
  (mergedNodesOf fs st md).map (·.id)

/-- mergedNodes.find(n => n.id.includes('root') || mergedNodes.indexOf(n) === 0).
The predicate always holds at index 0, mirrored by enumerating positions. -/
def findRootNode (nodes : List Node) : Option Node :=
  (nodes.enum.find? (fun p => strIncludes p.2.id "root" || p.1 == 0)).map (·.2)

/-- The e-source-e-target key strings of the current edges. -/
def edgeKeysOf (st : MapState) : List String :=
  st.edges.map (fun e => e.source ++ "-" ++ e.target)

/-- idMapping.get(x) || x: remap an endpoint, unmapped ids pass through. -/
def remapId (m : List (String × String)) (x : String) : String :=
  (List.lookup x m).getD x

/-- The id the source falls back to for an unresolvable edge source:
rootNode?.id || 'root'. -/
def rootFallbackId (fs : FreshSrc) (st : MapState) (md : MapData) : String :=
  ((findRootNode (mergedNodesOf fs st md)).map (·.id)).getD "root"

/-- The body of the first .map of the edge pipeline (store.ts lines 271-287):
remap both endpoints through idMapping, then, when the remapped source is
not a live node id, fall back to the root node. -/
def processEdgePair (fs : FreshSrc) (st : MapState) (md : MapData)
    (pe : PropEdge) : String × String :=
  let s0 := remapId (mergeAccOf fs st md).idMap pe.source
  let t := remapId (mergeAccOf fs st md).idMap pe.target
  let s := if (allIdsOf fs st md).contains s0 then s0 else rootFallbackId fs st md
  (s, t)

def processedOf (fs : FreshSrc) (st : MapState) (md : MapData) :
    List ((String × String) × Nat) :=
  md.edges.enum.map (fun p => (processEdgePair fs st md p.2, p.1))

/-- The .filter of the edge pipeline: keep an edge only when both endpoints
are live node ids and the key is not an existing edge key. -/
def acceptedOf (fs : FreshSrc) (st : MapState) (md : MapData) :
    List ((String × String) × Nat) :=
  let allIds := allIdsOf fs st md
  let existingKeys := edgeKeysOf st
  (processedOf fs st md).filter (fun q =>
    allIds.contains q.1.1 && allIds.contains q.1.2 &&
      ¬ existingKeys.contains (q.1.1 ++ "-" ++ q.1.2))

def aiEdgesOf (fs : FreshSrc) (st : MapState) (md : MapData) : List Edge :=
  (acceptedOf fs st md).map (fun q =>
    { id := "edge-" ++ toString fs.now ++ "-" ++ toString q.2,
      source := q.1.1, target := q.1.2 })

/-- newNodesNeedingEdges after the whole edge map ran: the ids of new nodes
(a JS Set, hence deduplicated) minus every remapped proposed-edge target. -/
def needingOf (fs : FreshSrc) (st : MapState) (md : MapData) : List String :=
  ((mergeAccOf fs st md).newNodes.map (·.id)).eraseDups.filter
    (fun i => ¬ (processedOf fs st md).any (fun q => q.1.2 == i))

/-- V38 orphan auto-attachment (store.ts lines 299-313). -/
def orphanEdgesOf (fs : FreshSrc) (st : MapState) (md : MapData) : List Edge :=
  let existingKeys := edgeKeysOf st
  match findRootNode (mergedNodesOf fs st md) with
  | some rn =>
      (needingOf fs st md).filterMap (fun oid =>
        if existingKeys.contains (rn.id ++ "-" ++ oid) then none
        else some { id := "edge-orphan-" ++ toString fs.now ++ "-" ++ oid,
                    source := rn.id, target := oid })
  | none => []

/-- setMindMapFromJSON (store.ts lines 165-319).  The early return for a
missing mapData.nodes is unrepresentable here because MapData always carries
a (possibly empty) node list, matching the truthiness of a JS array. -/
def setMindMapFromJSON (fs : FreshSrc) (st : MapState) (md : MapData) : MapState :=
  { nodes := mergedNodesOf fs st md,
    edges := st.edges ++ aiEdgesOf fs st md ++ orphanEdgesOf fs st md }

/-! ## deleteNode (store.ts lines 117-135)

The source runs a while loop over a queue with a visited set.  The loop is
embedded with an explicit fuel parameter large enough to always reach the
empty queue; theorem C10 below proves that this fuel bound suffices, i.e.
that the result is stable under any larger fuel. -/

def succTargets (edges : List Edge) (c : String) : List String :=
  (edges.filter (fun e => e.source == c)).map (·.target)

def bfsAux (edges : List Edge) : Nat → List String → List String → List String
  | 0, _, visited => visited
  | _ + 1, [], visited => visited
  | fuel + 1, c :: q, visited =>
    if visited.contains c then bfsAux edges fuel q visited
    else bfsAux edges fuel (q ++ succTargets edges c) (visited ++ [c])

def bfsFuel (edges : List Edge) : Nat :=
  (edges.length + 2) * (edges.length + 2)

/-- The nodesToDelete set collected by the while loop of deleteNode. -/
def nodesToDelete (edges : List Edge) (id : String) : List String :=
  bfsAux edges (bfsFuel edges) [id] []

def deleteNode (id : String) (st : MapState) : MapState :=
  let del := nodesToDelete st.edges id
  { nodes := st.nodes.filter (fun n => ¬ del.contains n.id),
    edges := st.edges.filter (fun e => ¬ del.contains e.source ∧ ¬ del.contains e.target) }

/-! ## Response parser (src/services/ai.ts, V50; identical line grammar in
src/unnamed/part_004, V53) -/

structure Topic where
  name : String
  desc : String
  preferredParent : String
deriving Repr, DecidableEq

structure ParseState where
  message : String
  topics : List Topic
  options : List String
  currentParentName : String
deriving Repr, DecidableEq

/-- s.replace(slash-caret-lbracket-or-rbracket-dollar-slash g, ""): removes one
leading left bracket and one trailing right bracket. -/
def stripOuterBrackets (s : String) : String :=
  let s1 := if strStartsWith s "[" then strDrop s 1 else s
  if strEndsWith s1 "]" then strDropRight s1 1 else s1

/-- After the TOPIC-digit-or-NEWTOPIC marker: optional colon, then leading
whitespace (regex colon-question whitespace-star). -/
def dropColonWs (s : String) : String :=
  strDropWhile Char.isWhitespace (if strStartsWith s ":" then strDrop s 1 else s)

/-- line.replace(regex caret TOPIC-digit-question or NEWTOPIC, colon-question,
whitespace-star, ""): strip the topic marker from the line. -/
def dropTopicMarker (line : String) : String :=
  if strStartsWith line "NEWTOPIC" then dropColonWs (strDrop line 8)
  else if strStartsWith line "TOPIC" then
    let r := strDrop line 5
    let r1 := match r.data with
      | c :: _ => if c.isDigit then strDrop r 1 else r
      | [] => r
    dropColonWs r1
  else line

/-- The TOPIC/NEWTOPIC line body: split on the bar separator into name and
description, strip outer brackets, default the description to the name. -/
def topicOfContent (content currentParent : String) : Option Topic :=
  let parts := (strSplitOnChar '|' content).map strTrim
  let name := (stripOuterBrackets (parts.headD "")).trim
  let descRaw := parts.getD 1 ""
  let desc := (stripOuterBrackets (if descRaw = "" then name else descRaw)).trim
  if name ≠ "" then some ⟨name, desc, currentParent⟩ else none

/-- One iteration of the for-line loop of parseAIResponse. -/
def parseLine (st : ParseState) (line : String) : ParseState :=
  if strStartsWith line "MESSAGE:" then { st with message := strTrim (strDrop line 8) }
  else if strStartsWith line "QUESTION:" then { st with message := strTrim (strDrop line 9) }
  else if strStartsWith line "PARENT:" then { st with currentParentName := strTrim (strDrop line 7) }
  else if strStartsWith line "TOPIC" || strStartsWith line "NEWTOPIC" then
    match topicOfContent (dropTopicMarker line) st.currentParentName with
    | some t => { st with topics := st.topics ++ [t] }
    | none => st
  else if strStartsWith line "OPTIONS:" then
    let opts := ((strSplitOnChar ',' (strDrop line 8)).map
      (fun s => stripOuterBrackets (strTrim s))).filter (fun s => s ≠ "")
    { st with options := opts }
  else st

def defaultMessage (goal : String) : String :=
  "Here\x27s your plan for " ++ goal ++ ". Click any topic or type to expand."

/-- The line-scanning phase of parseAIResponse: split on newlines, keep
non-blank lines, fold the marker dispatch over them. -/
def parseLines (response goal : String) : ParseState :=
  ((strSplitOnChar '\n' response).filter (fun l => strTrim l ≠ "")).foldl parseLine
    { message := defaultMessage goal, topics := [], options := [],
      currentParentName := "" }

structure MindMapPayload where
  nodes : List PropNode
  edges : List PropEdge
deriving Repr, DecidableEq

structure ParsedResponse where
  assistantResponse : String
  updatedMindMap : MindMapPayload
  suggestions : List String
deriving Repr, DecidableEq

/-- JS whitespace split; interior empty fragments are harmless because every
consumer either filters by length or scores empties as zero. -/
def splitWs (s : String) : List String :=
  strSplitPred Char.isWhitespace s

/-- V50 helper getOverlapScore (ai.ts lines 250-254): the number of search
words sharing a substring relation with some node-label word. -/
def getOverlapScore (nodeLabel searchText : String) : Nat :=
  let nodeWords := splitWs (strLower nodeLabel)
  let searchWords := splitWs (strLower searchText)
  (searchWords.filter (fun sw =>
    nodeWords.any (fun nw => strIncludes nw sw || strIncludes sw nw))).length

/-- The label read by both parser variants: n.data?.label || n.label || "".
Existing nodes passed in by the chat panel are store nodes, whose label
lives in the data field. -/
def nodeLabelOf (n : Node) : String :=
  n.data.label

/-- V50 per-topic parent resolution (ai.ts lines 259-287). -/
def resolveParentV50 (existingNodes : List Node) (defaultParentId lastUserMessage : String)
    (topic : Topic) : String :=
  let rootId? := (findRootNode existingNodes).map (·.id)
  let p1 : String :=
    if topic.preferredParent ≠ "" then
      match existingNodes.find? (fun n =>
          strIncludes (strLower (nodeLabelOf n)) (strLower topic.preferredParent) ||
          strIncludes (strLower topic.preferredParent) (strLower (nodeLabelOf n))) with
      | some m => m.id
      | none => defaultParentId
    else defaultParentId
  if p1 = defaultParentId || rootId? == some p1 then
    let best := existingNodes.foldl (fun (acc : Nat × Option Node) n =>
      if rootId? == some n.id then acc
      else
        let score := getOverlapScore (nodeLabelOf n) (lastUserMessage ++ " " ++ topic.name)
        if score > acc.1 then (score, some n) else acc) (0, none)
    match best.2 with
    | some bm => if best.1 > 0 then bm.id else p1
    | none => p1
  else p1

/-- parseAIResponse of src/services/ai.ts (V50), with Date.now() passed in
as the now argument. -/
def parseAIResponseV50 (now : Nat) (response goal : String) (existingNodes : List Node)
    (newNodeId defaultParentId lastUserMessage : String) : ParsedResponse :=
  let ps := parseLines response goal
  if existingNodes.length = 0 then
    { assistantResponse := ps.message,
      updatedMindMap :=
        { nodes := ⟨"root", strTake goal 30, goal, none⟩ ::
            ps.topics.enum.map (fun p =>
              ⟨"aspect-" ++ toString (p.1 + 1), p.2.name, p.2.desc, none⟩),
          edges := ps.topics.enum.map (fun p =>
            ⟨"root", "aspect-" ++ toString (p.1 + 1)⟩) },
      suggestions := if ps.options.length > 0 then ps.options
                     else (ps.topics.take 3).map (·.name) }
  else
    let newNodes := ps.topics.enum.map (fun p =>
      (⟨"node-" ++ toString now ++ "-" ++ toString p.1 ++ "-new",
        p.2.name, p.2.desc, none⟩ : PropNode))
    let newEdges := ps.topics.enum.map (fun p =>
      (⟨resolveParentV50 existingNodes defaultParentId lastUserMessage p.2,
        "node-" ++ toString now ++ "-" ++ toString p.1 ++ "-new"⟩ : PropEdge))
    let nodes := if newNodes.length = 0 then
        [⟨newNodeId, (if lastUserMessage = "" then "New Topic" else lastUserMessage),
          "Details about " ++ lastUserMessage, none⟩]
      else newNodes
    let edges := if newNodes.length = 0 then [⟨defaultParentId, newNodeId⟩] else newEdges
    { assistantResponse := ps.message,
      updatedMindMap := { nodes := nodes, edges := edges },
      suggestions := ps.options }

/-! ## V53 contextual anchor selection (src/unnamed/part_004, lines 191-278) -/

/-- Digits to a natural number. -/
def digitsVal (cs : List Char) : Nat :=
  cs.foldl (fun a c => a * 10 + (c.toNat - 48)) 0

/-- Scan for the regex node-digits-dash: at each position try the literal
node-, then a nonempty maximal digit run, then a dash. -/
def tsAux (sub : List Char) : List Char → Option Nat
  | [] => none
  | c :: rest =>
    if sub.isPrefixOf (c :: rest) then
      let after := (c :: rest).drop 5
      let digits := after.takeWhile Char.isDigit
      if digits ≠ [] ∧ (after.drop digits.length).headD ' ' = '-' then
        some (digitsVal digits)
      else tsAux sub rest
    else tsAux sub rest

/-- V53 getTimestamp: parseInt of the first node-digits-dash match, else 0. -/
def getTimestamp (id : String) : Nat :=
  (tsAux ("node-".data) id.data).getD 0

/-- First element achieving the maximal embedded timestamp.  This is the
head of the stable descending sort the source performs:
sortedByRecency = nodes.sort((a, b) => getTimestamp(b.id) - getTimestamp(a.id))
followed by sortedByRecency[0]; a stable descending sort puts the first
maximal element (in original order) at the head. -/
def mostRecentOf (l : List Node) : Option Node :=
  l.foldl (fun acc n =>
    match acc with
    | none => some n
    | some m => if getTimestamp n.id > getTimestamp m.id then some n else some m) none

/-- V53 weighted match score of one node label against the search tokens:
1 for an exact token match, 1/2 for containment of a significant token. -/
def matchScore53 (searchTokens : List String) (label : String) : ℚ :=
  let nodeTokens := splitWs (strLower label)
  (searchTokens.map (fun tok =>
    (nodeTokens.map (fun nt =>
      if nt = tok then (1 : ℚ)
      else if tok.length > 3 ∧ strIncludes nt tok then 1/2
      else 0)).sum)).sum

/-- The search tokens of V53 step 2: lowercased user message plus topic name,
whitespace-split, tokens of length at least 2. -/
def searchTokens53 (lastUserMessage topicName : String) : List String :=
  (splitWs (strLower (lastUserMessage ++ " " ++ topicName))).filter (fun t => t.length > 1)

/-- The normalized score of one node (matchScore / searchTokens.length). -/
def score53 (searchTokens : List String) (n : Node) : ℚ :=
  if searchTokens.length > 0 then
    matchScore53 searchTokens (nodeLabelOf n) / searchTokens.length
  else 0

/-- The best-scoring node fold of V53 step 2 (strictly-greater updates). -/
def bestMatch53 (searchTokens : List String) (rootId? : Option String)
    (existingNodes : List Node) : ℚ × Option Node :=
  existingNodes.foldl (fun acc n =>
    if rootId? == some n.id then acc
    else if score53 searchTokens n > acc.1 then (score53 searchTokens n, some n)
    else acc) (0, none)

/-- rootId || defaultParentId under JS string truthiness. -/
def rootOrDefault (rootId? : Option String) (defaultParentId : String) : String :=
  match rootId? with
  | some r => if r ≠ "" then r else defaultParentId
  | none => defaultParentId

/-- The rootId of the V53 anchor block (same first-element find as the store). -/
def rootIdOf (existingNodes : List Node) : Option String :=
  (findRootNode existingNodes).map (·.id)

/-- sortedByRecency before taking its head: the non-root existing nodes. -/
def nonRoot53 (existingNodes : List Node) : List Node :=
  existingNodes.filter (fun n => ¬ (rootIdOf existingNodes == some n.id))

/-- V53 per-topic anchor resolution (part_004 lines 211-278): AI preference,
then semantic scoring against the 0.35 threshold, then current focus, then
most recently created node, then root. -/
def resolveParentV53 (existingNodes : List Node) (defaultParentId lastUserMessage : String)
    (topic : Topic) : String :=
  let rootId? := rootIdOf existingNodes
  let mostRecent := mostRecentOf (nonRoot53 existingNodes)
  let focus : String :=
    if rootId? == some defaultParentId then "" else defaultParentId
  let p1 : String :=
    if topic.preferredParent ≠ "" then
      match existingNodes.find? (fun n =>
          strIncludes (strLower (nodeLabelOf n)) (strLower topic.preferredParent) ||
          strIncludes (strLower topic.preferredParent) (strLower (nodeLabelOf n))) with
      | some m => m.id
      | none => ""
    else ""
  let p2 : String :=
    if p1 = "" then
      let toks := searchTokens53 lastUserMessage topic.name
      let best := bestMatch53 toks rootId? existingNodes
      if best.2.isSome ∧ best.1 > 7/20 then ((best.2.map (·.id)).getD "")
      else if focus ≠ "" then focus
      else match mostRecent with
        | some m => m.id
        | none => rootOrDefault rootId? defaultParentId
    else p1
  if p2 = "" then rootOrDefault rootId? defaultParentId else p2

/-! ## Suggestion sanitizing (src/unnamed/part_006, lines 101-108) -/

/-- A dynamically typed entry of parsedData.suggestions. -/
inductive JVal where
  | jstr (s : String)
  | jother
deriving Repr, DecidableEq

/-- s.replace(bracket-class regex g, ""): delete every square bracket. -/
def stripAllBrackets (s : String) : String :=
  ⟨s.data.filter (fun c => c ≠ '[' ∧ c ≠ ']')⟩

/-- The suggestion cleanup chain of processAIResponse:
filter truthy strings, strip brackets and trim, keep nonempty entries of
length below 100. -/
def sanitizeSuggestions (raw : List JVal) : List String :=
  (((raw.filterMap (fun v =>
      match v with
      | .jstr s => if s ≠ "" then some s else none
      | .jother => none)).map
    (fun s => strTrim (stripAllBrackets s))).filter
    (fun s => s.length > 0 ∧ s.length < 100))

/-! ## Properties of the deleteNode traversal -/

/-- Reachability along outgoing edges, the specification of the cascade. -/
inductive Reach (edges : List Edge) (start : String) : String → Prop
  | refl : Reach edges start start
  | step {b : String} {e : Edge} :
      Reach edges start b → e ∈ edges → e.source = b → Reach edges start e.target

def targetsOf (edges : List Edge) : List String :=
  edges.map (·.target)

/-- The ids the loop may still visit. -/
def unvisited (edges : List Edge) (q visited : List String) : Finset String :=
  (q.toFinset ∪ (targetsOf edges).toFinset) \ visited.toFinset

/-- Loop variant of the while loop of deleteNode. -/
def bfsMeasure (edges : List Edge) (q visited : List String) : Nat :=
  (unvisited edges q visited).card * (edges.length + 1) + q.length

lemma succTargets_length_le (edges : List Edge) (c : String) :
    (succTargets edges c).length ≤ edges.length := by
  simpa [succTargets] using List.length_filter_le _ edges

lemma mem_succTargets {edges : List Edge} {c : String} {e : Edge}
    (he : e ∈ edges) (hc : e.source = c) : e.target ∈ succTargets edges c := by
  simp only [succTargets, List.mem_map]
  exact ⟨e, by simp [List.mem_filter, he, hc], rfl⟩

lemma succTargets_subset_targets (edges : List Edge) (c : String) :
    ∀ x ∈ succTargets edges c, x ∈ targetsOf edges := by
  intro x hx
  simp only [succTargets, List.mem_map, List.mem_filter] at hx
  rcases hx with ⟨e, ⟨he, _⟩, rfl⟩
  exact List.mem_map.2 ⟨e, he, rfl⟩

lemma bfsMeasure_visited {edges : List Edge} {c : String} {q visited : List String}
    (h : c ∈ visited) :
    bfsMeasure edges q visited + 1 = bfsMeasure edges (c :: q) visited := by
  have hset : unvisited edges q visited = unvisited edges (c :: q) visited := by
    apply Finset.ext
    intro x
    simp only [unvisited, Finset.mem_sdiff, Finset.mem_union, List.mem_toFinset,
      List.mem_cons]
    constructor
    · rintro ⟨hx, hnv⟩
      exact ⟨by tauto, hnv⟩
    · rintro ⟨hx, hnv⟩
      refine ⟨?_, hnv⟩
      rcases hx with hx | hx
      · rcases hx with rfl | hx
        · exact absurd h hnv
        · exact Or.inl hx
      · exact Or.inr hx
  simp only [bfsMeasure, hset, List.length_cons]
  ring

lemma bfsMeasure_new {edges : List Edge} {c : String} {q visited : List String}
    (h : c ∉ visited) :
    bfsMeasure edges (q ++ succTargets edges c) (visited ++ [c]) + 1 ≤
      bfsMeasure edges (c :: q) visited := by
  set S1 := unvisited edges (c :: q) visited with hS1
  set S2 := unvisited edges (q ++ succTargets edges c) (visited ++ [c]) with hS2
  have hcS1 : c ∈ S1 := by
    simp [hS1, unvisited, h]
  have hsub : S2 ⊆ S1.erase c := by
    intro x hx
    simp only [hS2, unvisited, Finset.mem_sdiff, Finset.mem_union, List.mem_toFinset,
      List.mem_append, List.mem_singleton] at hx
    rcases hx with ⟨hx, hnv⟩
    push_neg at hnv
    refine Finset.mem_erase.2 ⟨hnv.2, ?_⟩
    simp only [hS1, unvisited, Finset.mem_sdiff, Finset.mem_union, List.mem_toFinset,
      List.mem_cons]
    refine ⟨?_, hnv.1⟩
    rcases hx with hx | hx
    · rcases hx with hx | hx
      · exact Or.inl (Or.inr hx)
      · exact Or.inr (succTargets_subset_targets edges c x hx)
    · exact Or.inr hx
  have hcard : S2.card + 1 ≤ S1.card := by
    have h1 : S2.card ≤ (S1.erase c).card := Finset.card_le_card hsub
    have h2 : (S1.erase c).card = S1.card - 1 := Finset.card_erase_of_mem hcS1
    have h3 : 1 ≤ S1.card := Finset.card_pos.2 ⟨c, hcS1⟩
    omega
  have hmul : (S2.card + 1) * (edges.length + 1) ≤ S1.card * (edges.length + 1) :=
    Nat.mul_le_mul_right _ hcard
  have hsucc := succTargets_length_le edges c
  have hmul2 : S2.card * (edges.length + 1) + (edges.length + 1) ≤
      S1.card * (edges.length + 1) := by
    calc S2.card * (edges.length + 1) + (edges.length + 1)
        = (S2.card + 1) * (edges.length + 1) := by ring
      _ ≤ S1.card * (edges.length + 1) := hmul
  simp only [bfsMeasure, List.length_append, List.length_cons]
  rw [← hS1, ← hS2]
  omega

lemma bfsAux_fuel_succ (edges : List Edge) :
    ∀ fuel q visited, bfsMeasure edges q visited ≤ fuel →
      bfsAux edges fuel q visited = bfsAux edges (fuel + 1) q visited := by
  intro fuel
  induction fuel with
  | zero =>
      intro q visited h
      have hq : q = [] := by
        cases q with
        | nil => rfl
        | cons c t => simp [bfsMeasure] at h
      subst hq
      simp [bfsAux]
  | succ f ih =>
      intro q visited h
      cases q with
      | nil => simp [bfsAux]
      | cons c t =>
          by_cases hc : visited.contains c
          · have hcm : c ∈ visited := by simpa using hc
            have hm : bfsMeasure edges t visited ≤ f := by
              have := @bfsMeasure_visited edges c t visited hcm
              omega
            simp only [bfsAux, hc, if_pos]
            exact ih t visited hm
          · have hcm : c ∉ visited := by simpa using hc
            have hm : bfsMeasure edges (t ++ succTargets edges c) (visited ++ [c]) ≤ f := by
              have := @bfsMeasure_new edges c t visited hcm
              omega
            simp only [bfsAux, hc, if_neg, Bool.false_eq_true, not_false_iff]
            exact ih _ _ hm

lemma bfsAux_fuel_ge (edges : List Edge) (q visited : List String)
    (f1 f2 : Nat) (h1 : bfsMeasure edges q visited ≤ f1) (h12 : f1 ≤ f2) :
    bfsAux edges f1 q visited = bfsAux edges f2 q visited := by
  induction f2, h12 using Nat.le_induction with
  | base => rfl
  | succ n hn ih =>
      rw [ih, bfsAux_fuel_succ edges n q visited (le_trans h1 hn)]

lemma bfsMeasure_init_le (edges : List Edge) (id : String) :
    bfsMeasure edges [id] [] ≤ bfsFuel edges := by
  have hcard : (unvisited edges [id] []).card ≤ edges.length + 1 := by
    have h1 : unvisited edges [id] [] ⊆ insert id (targetsOf edges).toFinset := by
      intro x hx
      simp only [unvisited, Finset.mem_sdiff, Finset.mem_union, List.mem_toFinset,
        List.mem_singleton, List.toFinset_nil, Finset.not_mem_empty, not_false_iff,
        and_true] at hx
      simp only [Finset.mem_insert, List.mem_toFinset]
      tauto
    calc (unvisited edges [id] []).card
        ≤ (insert id (targetsOf edges).toFinset).card := Finset.card_le_card h1
      _ ≤ (targetsOf edges).toFinset.card + 1 := Finset.card_insert_le _ _
      _ ≤ (targetsOf edges).length + 1 :=
          Nat.add_le_add_right (targetsOf edges).toFinset_card_le _
      _ = edges.length + 1 := by simp [targetsOf]
  have : bfsMeasure edges [id] [] ≤ (edges.length + 1) * (edges.length + 1) + 1 := by
    simp only [bfsMeasure, List.length_singleton]
    exact Nat.add_le_add_right (Nat.mul_le_mul_right _ hcard) 1
  have hb : (edges.length + 1) * (edges.length + 1) + 1 ≤ bfsFuel edges := by
    simp only [bfsFuel]
    nlinarith [edges.length.zero_le]
  omega

lemma bfsAux_eq_nodesToDelete (edges : List Edge) (id : String) (fuel : Nat)
    (h : bfsFuel edges ≤ fuel) :
    bfsAux edges fuel [id] [] = nodesToDelete edges id := by
  rw [nodesToDelete,
    bfsAux_fuel_ge edges [id] [] (bfsFuel edges) fuel (bfsMeasure_init_le edges id) h]

lemma bfsAux_nodup (edges : List Edge) :
    ∀ fuel q visited, visited.Nodup → (bfsAux edges fuel q visited).Nodup := by
  intro fuel
  induction fuel with
  | zero => intro q visited h; simpa [bfsAux] using h
  | succ f ih =>
      intro q visited h
      cases q with
      | nil => simpa [bfsAux] using h
      | cons c t =>
          by_cases hc : visited.contains c
          · simp only [bfsAux, hc, if_pos]
            exact ih t visited h
          · have hcm : c ∉ visited := by simpa using hc
            simp only [bfsAux, hc, Bool.false_eq_true, if_neg, not_false_iff]
            exact ih _ _ (by simp [List.nodup_append, h, hcm])

lemma bfsAux_visited_prefix (edges : List Edge) :
    ∀ fuel q visited, ∃ w, bfsAux edges fuel q visited = visited ++ w := by
  intro fuel
  induction fuel with
  | zero => intro q visited; exact ⟨[], by simp [bfsAux]⟩
  | succ f ih =>
      intro q visited
      cases q with
      | nil => exact ⟨[], by simp [bfsAux]⟩
      | cons c t =>
          by_cases hc : visited.contains c
          · simpa only [bfsAux, hc, if_pos] using ih t visited
          · obtain ⟨w, hw⟩ := ih (t ++ succTargets edges c) (visited ++ [c])
            refine ⟨[c] ++ w, ?_⟩
            simp only [bfsAux, hc, Bool.false_eq_true, if_neg, not_false_iff]
            simpa using hw

lemma bfsAux_mem_of_visited (edges : List Edge) (fuel : Nat) (q visited : List String)
    {x : String} (hx : x ∈ visited) : x ∈ bfsAux edges fuel q visited := by
  obtain ⟨w, hw⟩ := bfsAux_visited_prefix edges fuel q visited
  rw [hw]
  exact List.mem_append_left _ hx

lemma bfsAux_absorb (edges : List Edge) :
    ∀ fuel q visited, bfsMeasure edges q visited ≤ fuel →
      ∀ x, x ∈ q ∨ x ∈ visited → x ∈ bfsAux edges fuel q visited := by
  intro fuel
  induction fuel with
  | zero =>
      intro q visited h x hx
      have hq : q = [] := by
        cases q with
        | nil => rfl
        | cons c t => simp [bfsMeasure] at h
      subst hq
      simpa [bfsAux] using hx.resolve_left (by simp)
  | succ f ih =>
      intro q visited h x hx
      cases q with
      | nil =>
          simpa [bfsAux] using hx.resolve_left (by simp)
      | cons c t =>
          by_cases hc : visited.contains c
          · have hcm : c ∈ visited := by simpa using hc
            have hm : bfsMeasure edges t visited ≤ f := by
              have := @bfsMeasure_visited edges c t visited hcm
              omega
            simp only [bfsAux, hc, if_pos]
            refine ih t visited hm x ?_
            rcases hx with hx | hx
            · rcases List.mem_cons.1 hx with rfl | hx
              · exact Or.inr hcm
              · exact Or.inl hx
            · exact Or.inr hx
          · have hcm : c ∉ visited := by simpa using hc
            have hm : bfsMeasure edges (t ++ succTargets edges c) (visited ++ [c]) ≤ f := by
              have := @bfsMeasure_new edges c t visited hcm
              omega
            simp only [bfsAux, hc, Bool.false_eq_true, if_neg, not_false_iff]
            refine ih _ _ hm x ?_
            rcases hx with hx | hx
            · rcases List.mem_cons.1 hx with rfl | hx
              · exact Or.inr (by simp)
              · exact Or.inl (List.mem_append_left _ hx)
            · exact Or.inr (List.mem_append_left _ hx)

/-- Closedness invariant: every outgoing edge of a visited id leads into the
visited set or the queue. -/
def BfsInv (edges : List Edge) (q visited : List String) : Prop :=
  ∀ a ∈ visited, ∀ e ∈ edges, e.source = a → e.target ∈ visited ∨ e.target ∈ q

lemma bfsAux_closed (edges : List Edge) :
    ∀ fuel q visited, bfsMeasure edges q visited ≤ fuel → BfsInv edges q visited →
      ∀ a ∈ bfsAux edges fuel q visited, ∀ e ∈ edges, e.source = a →
        e.target ∈ bfsAux edges fuel q visited := by
  intro fuel
  induction fuel with
  | zero =>
      intro q visited h hinv a ha e he hs
      have hq : q = [] := by
        cases q with
        | nil => rfl
        | cons c t => simp [bfsMeasure] at h
      subst hq
      simp only [bfsAux] at ha ⊢
      rcases hinv a ha e he hs with ht | ht
      · exact ht
      · simp at ht
  | succ f ih =>
      intro q visited h hinv a ha e he hs
      cases q with
      | nil =>
          simp only [bfsAux] at ha ⊢
          rcases hinv a ha e he hs with ht | ht
          · exact ht
          · simp at ht
      | cons c t =>
          by_cases hc : visited.contains c
          · have hcm : c ∈ visited := by simpa using hc
            have hm : bfsMeasure edges t visited ≤ f := by
              have := @bfsMeasure_visited edges c t visited hcm
              omega
            have hinv2 : BfsInv edges t visited := by
              intro a2 ha2 e2 he2 hs2
              rcases hinv a2 ha2 e2 he2 hs2 with ht | ht
              · exact Or.inl ht
              · rcases List.mem_cons.1 ht with hx | hx
                · exact Or.inl (hx ▸ hcm)
                · exact Or.inr hx
            simp only [bfsAux, hc, if_pos] at ha ⊢
            exact ih t visited hm hinv2 a ha e he hs
          · have hcm : c ∉ visited := by simpa using hc
            have hm : bfsMeasure edges (t ++ succTargets edges c) (visited ++ [c]) ≤ f := by
              have := @bfsMeasure_new edges c t visited hcm
              omega
            have hinv2 : BfsInv edges (t ++ succTargets edges c) (visited ++ [c]) := by
              intro a2 ha2 e2 he2 hs2
              rcases List.mem_append.1 ha2 with ha2 | ha2
              · rcases hinv a2 ha2 e2 he2 hs2 with ht | ht
                · exact Or.inl (List.mem_append_left _ ht)
                · rcases List.mem_cons.1 ht with hx | hx
                  · exact Or.inl (by simp [hx])
                  · exact Or.inr (List.mem_append_left _ hx)
              · have ha2c : a2 = c := by simpa using ha2
                subst ha2c
                exact Or.inr (List.mem_append_right _ (mem_succTargets he2 hs2))
            simp only [bfsAux, hc, Bool.false_eq_true, if_neg, not_false_iff] at ha ⊢
            exact ih _ _ hm hinv2 a ha e he hs

lemma bfsAux_sound (edges : List Edge) (start : String) :
    ∀ fuel q visited, (∀ x ∈ q, Reach edges start x) →
      (∀ x ∈ visited, Reach edges start x) →
      ∀ x ∈ bfsAux edges fuel q visited, Reach edges start x := by
  intro fuel
  induction fuel with
  | zero => intro q visited _ hv x hx; exact hv x (by simpa [bfsAux] using hx)
  | succ f ih =>
      intro q visited hq hv x hx
      cases q with
      | nil => exact hv x (by simpa [bfsAux] using hx)
      | cons c t =>
          by_cases hc : visited.contains c
          · simp only [bfsAux, hc, if_pos] at hx
            exact ih t visited (fun y hy => hq y (List.mem_cons_of_mem _ hy)) hv x hx
          · simp only [bfsAux, hc, Bool.false_eq_true, if_neg, not_false_iff] at hx
            have hrc : Reach edges start c := hq c (List.mem_cons_self _ _)
            refine ih _ _ ?_ ?_ x hx
            · intro y hy
              rcases List.mem_append.1 hy with hy | hy
              · exact hq y (List.mem_cons_of_mem _ hy)
              · simp only [succTargets, List.mem_map, List.mem_filter] at hy
                rcases hy with ⟨e, ⟨he, hsrc⟩, rfl⟩
                exact Reach.step hrc he (by simpa using hsrc)
            · intro y hy
              rcases List.mem_append.1 hy with hy | hy
              · exact hv y hy
              · have : y = c := by simpa using hy
                exact this ▸ hrc

lemma mem_nodesToDelete_iff (edges : List Edge) (id x : String) :
    x ∈ nodesToDelete edges id ↔ Reach edges id x := by
  constructor
  · intro hx
    exact bfsAux_sound edges id (bfsFuel edges) [id] []
      (fun y hy => by simpa using (by simpa using hy : y = id) ▸ Reach.refl)
      (fun y hy => by simp at hy) x hx
  · intro hr
    induction hr with
    | refl =>
        exact bfsAux_absorb edges (bfsFuel edges) [id] []
          (bfsMeasure_init_le edges id) id (Or.inl (by simp))
    | step hb he hs ih =>
        exact bfsAux_closed edges (bfsFuel edges) [id] []
          (bfsMeasure_init_le edges id) (fun a ha => by simp at ha) _ ih _ he hs

/-! ## Claims C8 and C10: cascading delete -/

def c8Root : Node := ⟨"root", (0, 0), ⟨"goal", "", none⟩, "default"⟩
def c8A : Node := ⟨"A", (0, 0), ⟨"a", "", none⟩, "default"⟩
def c8B : Node := ⟨"B", (0, 0), ⟨"b", "", none⟩, "default"⟩
def c8C : Node := ⟨"C", (0, 0), ⟨"c", "", none⟩, "default"⟩

/-- The graph of the cascading-delete test property: root to A, A to B, A to C. -/
def c8St : MapState :=
  ⟨[c8Root, c8A, c8B, c8C],
   [⟨"e1", "root", "A"⟩, ⟨"e2", "A", "B"⟩, ⟨"e3", "A", "C"⟩]⟩

/-- C8, counterexample: in the graph with edges root to A, A to B, A to C
and no others, the edges touching the deleted set consisting of A, B and C
number three, not four as the claim states; there is no fourth edge for
deleteNode to remove. -/
theorem c8_counterexample :
    (c8St.edges.filter (fun e =>
      (nodesToDelete c8St.edges "A").contains e.source ∨
      (nodesToDelete c8St.edges "A").contains e.target)).length = 3 ∧
    ¬ (c8St.edges.filter (fun e =>
      (nodesToDelete c8St.edges "A").contains e.source ∨
      (nodesToDelete c8St.edges "A").contains e.target)).length = 4 := by
  constructor
  · decide
  · decide

/-- C8, amended: deleteNode removes exactly the set of nodes reachable from
the given id along outgoing edges and every edge touching that set; on the
graph with edges root to A, A to B, A to C (three edges touching the deleted
set, not four), deleting A leaves only the root and an empty edge set. -/
theorem deleteNode_cascade_characterization (id : String) (st : MapState) :
    (∀ n, n ∈ (deleteNode id st).nodes ↔ n ∈ st.nodes ∧ ¬ Reach st.edges id n.id) ∧
    (∀ e, e ∈ (deleteNode id st).edges ↔
      e ∈ st.edges ∧ ¬ Reach st.edges id e.source ∧ ¬ Reach st.edges id e.target) ∧
    deleteNode "A" c8St = ⟨[c8Root], []⟩ := by
  refine ⟨?_, ?_, by decide⟩
  · intro n
    simp [deleteNode, List.mem_filter, ← mem_nodesToDelete_iff, List.elem_iff]
  · intro e
    simp [deleteNode, List.mem_filter, ← mem_nodesToDelete_iff, List.elem_iff]

/-- C10: the traversal of deleteNode is total on every edge set, including
cyclic and self-looping ones: the visited list never repeats an id, and the
loop reaches its fixed point within the fuel bound, so that any larger fuel
returns the same visited set. -/
theorem deleteNode_traversal_terminates (edges : List Edge) (id : String) :
    (nodesToDelete edges id).Nodup ∧
    ∀ fuel, bfsFuel edges ≤ fuel → bfsAux edges fuel [id] [] = nodesToDelete edges id :=
  ⟨bfsAux_nodup edges (bfsFuel edges) [id] [] List.nodup_nil,
   fun fuel h => bfsAux_eq_nodesToDelete edges id fuel h⟩

/-- The cyclic, self-looping edge set used to witness C10. -/
def cycEdges : List Edge :=
  [⟨"e1", "a", "b"⟩, ⟨"e2", "b", "a"⟩, ⟨"e3", "a", "a"⟩]

theorem deleteNode_traversal_terminates_witness :
    (nodesToDelete cycEdges "a").Nodup ∧
    bfsAux cycEdges 30 ["a"] [] = nodesToDelete cycEdges "a" :=
  ⟨(deleteNode_traversal_terminates cycEdges "a").1,
   (deleteNode_traversal_terminates cycEdges "a").2 30 (by decide)⟩

/-! ## Concrete merge fixtures -/

/-- A concrete source of timestamps, id suffixes and positions for witnesses. -/
def fsW : FreshSrc := ⟨100, fun _ => "ab", fun _ => (0, 0)⟩

def wRoot : Node := ⟨"root", (0, 0), ⟨"Goal", "", none⟩, "default"⟩
def wA : Node := ⟨"a", (0, 0), ⟨"Alpha", "", none⟩, "default"⟩
def wB : Node := ⟨"b", (0, 0), ⟨"Beta", "", none⟩, "default"⟩

/-- C1, counterexample: a proposed edge whose source zzz resolves to no live
node id is not dropped; setMindMapFromJSON redirects its source to the root
node and keeps it, so the merged edge set gains the pair root to a even
though the claim requires the edge to be discarded (the second conjunct
records that zzz is indeed not a live id after the merge). -/
theorem c1_counterexample :
    ((setMindMapFromJSON fsW ⟨[wRoot, wA], []⟩ ⟨[], [⟨"zzz", "a"⟩], []⟩).edges.map
      (fun e => (e.source, e.target))) = [("root", "a")] ∧
    ¬ (allIdsOf fsW ⟨[wRoot, wA], []⟩ ⟨[], [⟨"zzz", "a"⟩], []⟩).contains "zzz" = true := by
  exact ⟨by decide, by decide⟩

/-- C2, counterexample: starting from a graph satisfying the edge-uniqueness
invariant (it has no edges at all), a proposal containing the same edge a to
b twice yields a merged graph with a duplicated (source, target) pair,
because the duplicate filter only consults the pre-merge edge keys. -/
theorem c2_counterexample :
    ((⟨[wRoot, wA, wB], []⟩ : MapState).edges.map (fun e => (e.source, e.target))).Nodup ∧
    ¬ ((setMindMapFromJSON fsW ⟨[wRoot, wA, wB], []⟩
        ⟨[], [⟨"a", "b"⟩, ⟨"a", "b"⟩], []⟩).edges.map
      (fun e => (e.source, e.target))).Nodup := by
  exact ⟨by decide, by decide⟩

/-- C3, counterexample: on unstructured text with no recognized markers and
no braces, parseAIResponse does not return zero nodes: on a first turn it
returns exactly one node (the root built from the goal). -/
theorem c3_counterexample :
    (parseAIResponseV50 5 "hello world plain text" "mygoal" [] "nid" "pid"
      "msg").updatedMindMap.nodes.length = 1 ∧
    ¬ (parseAIResponseV50 5 "hello world plain text" "mygoal" [] "nid" "pid"
      "msg").updatedMindMap.nodes.length = 0 := by
  exact ⟨by decide, by decide⟩

def c6Root : Node := ⟨"root", (0, 0), ⟨"Goal", "", none⟩, "default"⟩
def c6X : Node := ⟨"x", (0, 0), ⟨"Tech Stack", "old", none⟩, "default"⟩

/-- C6, counterexample: the proposed node has the normalized label of the
existing node x and supplies the differing non-empty description new, yet
because its proposal-local id is the root marker and a node with id root
exists, the root-update path wins: x keeps its old description (and the
proposal-local id resolves to root, not to x). -/
theorem c6_counterexample :
    normLabel "tech stack " = normLabel c6X.data.label ∧
    ((setMindMapFromJSON fsW ⟨[c6Root, c6X], []⟩
        ⟨[⟨"root", "tech stack ", "new", none⟩], [], []⟩).nodes.map
      (fun n => (n.id, n.data.description))) = [("x", "old"), ("root", "new")] := by
  exact ⟨by decide, by decide⟩

/-! ## Claim C5: orphan auto-attachment -/

/-- C5: merging a proposal with exactly one new node (matching no existing id
or normalized label) and zero edges into a graph holding only a root node
yields the root plus the new node, and exactly one edge: the orphan
auto-attachment edge from the root to the new node, so the new node has
exactly one incoming edge, whose source is the root. -/
theorem merge_orphan_autoattach (fs : FreshSrc) (root : Node) (n : PropNode)
    (h1 : normLabel n.label ≠ "")
    (h2 : normLabel n.label ≠ normLabel root.data.label)
    (h3 : n.id ≠ root.id) :
    ((setMindMapFromJSON fs ⟨[root], []⟩ ⟨[n], [], []⟩).nodes.map (·.id))
        = [root.id, newIdAt fs 0] ∧
    ((setMindMapFromJSON fs ⟨[root], []⟩ ⟨[n], [], []⟩).edges.map
        (fun e => (e.source, e.target))) = [(root.id, newIdAt fs 0)] := by
  have hb2 : (normLabel n.label == normLabel root.data.label) = false :=
    beq_eq_false_iff_ne.2 h2
  have hacc : mergeAccOf fs ⟨[root], []⟩ ⟨[n], [], []⟩ =
      ⟨[], [⟨newIdAt fs 0, fs.pos 0, ⟨n.label, n.description, n.imageUrl⟩, "expandable"⟩],
       [(n.id, newIdAt fs 0)],
       (normLabel n.label, ⟨newIdAt fs 0, (0, 0), ⟨n.label, n.description, none⟩, ""⟩)
         :: byLabelMap [root]⟩ := by
    by_cases hroot : n.id = "root"
    · have h3' : root.id ≠ "root" := fun h => h3 (by rw [hroot, h])
      have hb3 : ("root" == root.id) = false := beq_eq_false_iff_ne.2 (Ne.symm h3')
      simp [mergeAccOf, processNodes, initUpdates, processNode, List.enum,
        byIdMap, h1, hb2, hroot, List.lookup, hb3, byLabelMap]
    · simp [mergeAccOf, processNodes, initUpdates, processNode, List.enum,
        byIdMap, h1, hb2, hroot, List.lookup, byLabelMap]
  constructor
  · simp [setMindMapFromJSON, mergedNodesOf, hacc]
  · simp [setMindMapFromJSON, mergedNodesOf, hacc, aiEdgesOf, acceptedOf,
      processedOf, orphanEdgesOf, needingOf, findRootNode, edgeKeysOf,
      List.enum, List.eraseDups, List.eraseDups.loop, allIdsOf]

theorem merge_orphan_autoattach_witness :
    (normLabel "Newbie" ≠ "" ∧ normLabel "Newbie" ≠ normLabel wRoot.data.label ∧
      "p1" ≠ wRoot.id) ∧
    ((setMindMapFromJSON fsW ⟨[wRoot], []⟩
        ⟨[⟨"p1", "Newbie", "d", none⟩], [], []⟩).nodes.map (·.id))
        = [wRoot.id, newIdAt fsW 0] ∧
    ((setMindMapFromJSON fsW ⟨[wRoot], []⟩
        ⟨[⟨"p1", "Newbie", "d", none⟩], [], []⟩).edges.map
        (fun e => (e.source, e.target))) = [(wRoot.id, newIdAt fsW 0)] :=
  ⟨⟨by decide, by decide, by decide⟩,
   merge_orphan_autoattach fsW wRoot ⟨"p1", "Newbie", "d", none⟩
     (by decide) (by decide) (by decide)⟩

/-! ## Claim C7: idempotent root update -/

lemma lookup_map_self {l : List Node} (hnd : (l.map (·.id)).Nodup) {r : Node} (hr : r ∈ l) :
    List.lookup r.id (l.map (fun n => (n.id, n))) = some r := by
  induction l with
  | nil => simp at hr
  | cons x t ih =>
      rcases List.mem_cons.1 hr with rfl | hrt
      · simp [List.lookup]
      · have hx : ¬ (r.id == x.id) = true := by
          intro hb
          have hxid : x.id ∈ t.map (·.id) := List.mem_map.2 ⟨r, hrt, eq_of_beq hb⟩
          exact (List.nodup_cons.1 (by simpa using hnd)).1 hxid
        simp only [List.map_cons, List.lookup]
        rw [Bool.eq_false_iff.2 hx]
        exact ih (List.nodup_cons.1 (by simpa using hnd)).2 hrt

lemma lookup_byIdMap {l : List Node} (hnd : (l.map (·.id)).Nodup) {r : Node} (hr : r ∈ l) :
    List.lookup r.id (byIdMap l) = some r := by
  have : byIdMap l = l.reverse.map (fun n => (n.id, n)) := by
    simp [byIdMap, List.map_reverse]
  rw [this]
  exact lookup_map_self (by simpa [List.map_reverse] using List.nodup_reverse.2 hnd)
    (List.mem_reverse.2 hr)

lemma filter_id_single {l : List Node} (hnd : (l.map (·.id)).Nodup) {r : Node}
    (hr : r ∈ l) : l.filter (fun m => m.id == r.id) = [r] := by
  induction l with
  | nil => simp at hr
  | cons x t ih =>
      rcases List.mem_cons.1 hr with rfl | hrt
      · have ht : t.filter (fun m => m.id == r.id) = [] := by
          refine List.filter_eq_nil_iff.2 ?_
          intro m hm hb
          have : r.id ∈ t.map (·.id) := List.mem_map.2 ⟨m, hm, by simpa using hb⟩
          exact (List.nodup_cons.1 (by simpa using hnd)).1 this
        simp [List.filter, ht]
      · have hx : (x.id == r.id) = false := by
          refine Bool.eq_false_iff.2 ?_
          intro hb
          have : x.id ∈ t.map (·.id) := List.mem_map.2 ⟨r, hrt, (eq_of_beq hb).symm⟩
          exact (List.nodup_cons.1 (by simpa using hnd)).1 this
        simp only [List.filter, hx]
        exact ih (List.nodup_cons.1 (by simpa using hnd)).2 hrt

theorem merge_root_update_idempotent (fs : FreshSrc) (st : MapState) (r : Node)
    (L D : String) (u : Option String)
    (hnd : (st.nodes.map (·.id)).Nodup)
    (hr : r ∈ st.nodes) (hrid : r.id = "root")
    (hL : normLabel L ≠ "") (hD : D ≠ "") :
    (setMindMapFromJSON fs st ⟨[⟨"root", L, D, u⟩], [], []⟩).nodes
        = st.nodes.filter (fun m => ¬ m.id = "root")
          ++ [⟨"root", r.position, ⟨L, D, r.data.imageUrl⟩, r.type⟩] ∧
    (setMindMapFromJSON fs st ⟨[⟨"root", L, D, u⟩], [], []⟩).edges = st.edges ∧
    setMindMapFromJSON fs (setMindMapFromJSON fs st ⟨[⟨"root", L, D, u⟩], [], []⟩)
        ⟨[⟨"root", L, D, u⟩], [], []⟩
      = setMindMapFromJSON fs st ⟨[⟨"root", L, D, u⟩], [], []⟩ ∧
    (((setMindMapFromJSON fs st ⟨[⟨"root", L, D, u⟩], [], []⟩).nodes.filter
        (fun m => m.id = "root")).map (fun m => (m.data.label, m.data.description)))
      = [(L, D)] ∧
    ((setMindMapFromJSON fs st ⟨[⟨"root", L, D, u⟩], [], []⟩).nodes.map (·.id)).Nodup := by
  have hLne : L ≠ "" := fun hc => hL (by rw [hc]; rfl)
  have hlook : List.lookup "root" (byIdMap st.nodes) = some r := by
    rw [← hrid]; exact lookup_byIdMap hnd hr
  set md : MapData := ⟨[⟨"root", L, D, u⟩], [], []⟩ with hmd
  set rr : Node := ⟨"root", r.position, ⟨L, D, r.data.imageUrl⟩, r.type⟩ with hrr
  have hacc : mergeAccOf fs st md =
      ⟨[rr], [], [("root", "root")], byLabelMap st.nodes⟩ := by
    simp [mergeAccOf, hmd, hrr, processNodes, List.enum, processNode, initUpdates,
      hlook, hL, hLne, hD, hrid]
  set res := setMindMapFromJSON fs st md with hres
  have hnodes : res.nodes = st.nodes.filter (fun m => ¬ m.id = "root") ++ [rr] := by
    rw [hres]
    simp [setMindMapFromJSON, mergedNodesOf, hacc, hrr]
  have hedges : res.edges = st.edges := by
    rw [hres]
    cases hfr : findRootNode (mergedNodesOf fs st md) <;>
      simp [setMindMapFromJSON, aiEdgesOf, acceptedOf, processedOf, orphanEdgesOf,
        needingOf, hacc, hfr, hmd, List.enum, List.eraseDups, List.eraseDups.loop]
  have hFroot : ∀ m ∈ st.nodes.filter (fun m => ¬ m.id = "root"), ¬ m.id = "root" := by
    intro m hm
    have := List.of_mem_filter hm
    simpa using this
  have hrmem : rr ∈ res.nodes := by
    rw [hnodes]; exact List.mem_append_right _ (by simp)
  have hnd2 : (res.nodes.map (·.id)).Nodup := by
    rw [hnodes]
    simp only [List.map_append, List.map_cons, List.map_nil]
    rw [List.nodup_append]
    refine ⟨((List.filter_sublist _).map _).nodup hnd, by simp, ?_⟩
    intro x hx
    simp only [List.mem_map] at hx
    rcases hx with ⟨m, hm, rfl⟩
    have hne := hFroot m hm
    simp [hrr, hne]
  have hlook2 : List.lookup "root" (byIdMap res.nodes) = some rr :=
    lookup_byIdMap hnd2 hrmem
  have hacc2 : mergeAccOf fs res md =
      ⟨[rr], [], [("root", "root")], byLabelMap res.nodes⟩ := by
    simp [mergeAccOf, hmd, processNodes, List.enum, processNode, initUpdates,
      hlook2, hL, hLne, hD, hrr]
  have hnodes2 : (setMindMapFromJSON fs res md).nodes = res.nodes := by
    simp only [setMindMapFromJSON, mergedNodesOf, hacc2]
    rw [hnodes]
    rw [List.filter_append]
    have h1 : (st.nodes.filter (fun m => ¬ m.id = "root")).filter
        (fun n => ¬ (List.map (fun x => x.id) [rr]).contains n.id = true)
        = st.nodes.filter (fun m => ¬ m.id = "root") := by
      refine List.filter_eq_self.2 ?_
      intro m hm
      have := hFroot m hm
      simp [hrr, this]
    have h2 : ([rr].filter (fun n => ¬ (List.map (fun x => x.id) [rr]).contains n.id = true)) = [] := by
      simp
    rw [h1, h2]
    simp
  have hedges2 : (setMindMapFromJSON fs res md).edges = res.edges := by
    conv_rhs => rw [hedges]
    cases hfr : findRootNode (mergedNodesOf fs res md) <;>
      simp [setMindMapFromJSON, aiEdgesOf, acceptedOf, processedOf, orphanEdgesOf,
        needingOf, hacc2, hfr, hmd, hedges, List.enum, List.eraseDups, List.eraseDups.loop]
  refine ⟨hnodes, hedges, ?_, ?_, hnd2⟩
  · calc setMindMapFromJSON fs res md
        = ⟨(setMindMapFromJSON fs res md).nodes, (setMindMapFromJSON fs res md).edges⟩ := rfl
      _ = ⟨res.nodes, res.edges⟩ := by rw [hnodes2, hedges2]
      _ = res := rfl
  · rw [hnodes, List.filter_append]
    have h1 : (st.nodes.filter (fun m => ¬ m.id = "root")).filter (fun m => m.id = "root") = [] := by
      refine List.filter_eq_nil_iff.2 ?_
      intro m hm
      have := hFroot m hm
      simpa using this
    rw [h1]
    simp [hrr]

theorem merge_root_update_idempotent_witness :
    (setMindMapFromJSON fsW ⟨[wRoot, wA], []⟩ ⟨[⟨"root", "Plan", "Desc", none⟩], [], []⟩).nodes
        = (⟨[wRoot, wA], []⟩ : MapState).nodes.filter (fun m => ¬ m.id = "root")
          ++ [⟨"root", wRoot.position, ⟨"Plan", "Desc", wRoot.data.imageUrl⟩, wRoot.type⟩] ∧
    (setMindMapFromJSON fsW ⟨[wRoot, wA], []⟩
        ⟨[⟨"root", "Plan", "Desc", none⟩], [], []⟩).edges = (⟨[wRoot, wA], []⟩ : MapState).edges ∧
    setMindMapFromJSON fsW
        (setMindMapFromJSON fsW ⟨[wRoot, wA], []⟩ ⟨[⟨"root", "Plan", "Desc", none⟩], [], []⟩)
        ⟨[⟨"root", "Plan", "Desc", none⟩], [], []⟩
      = setMindMapFromJSON fsW ⟨[wRoot, wA], []⟩ ⟨[⟨"root", "Plan", "Desc", none⟩], [], []⟩ ∧
    (((setMindMapFromJSON fsW ⟨[wRoot, wA], []⟩
        ⟨[⟨"root", "Plan", "Desc", none⟩], [], []⟩).nodes.filter
        (fun m => m.id = "root")).map (fun m => (m.data.label, m.data.description)))
      = [("Plan", "Desc")] ∧
    ((setMindMapFromJSON fsW ⟨[wRoot, wA], []⟩
        ⟨[⟨"root", "Plan", "Desc", none⟩], [], []⟩).nodes.map (·.id)).Nodup :=
  merge_root_update_idempotent fsW ⟨[wRoot, wA], []⟩ wRoot "Plan" "Desc" none
    (by decide) (by decide) (by decide) (by decide) (by decide)

/-! ## Claim C9: suggestion sanitizing -/

/-- C9: every suggestion delivered to the chat after the cleanup chain of
processAIResponse is a string (by the result type), nonempty, and shorter
than 100 characters. -/
theorem suggestions_sanitized (raw : List JVal) :
    ∀ s ∈ sanitizeSuggestions raw, s ≠ "" ∧ s.length < 100 := by
  intro s hs
  simp only [sanitizeSuggestions, List.mem_filter] at hs
  obtain ⟨-, hp⟩ := hs
  have hlen := of_decide_eq_true hp
  refine ⟨?_, hlen.2⟩
  intro hc
  rw [hc] at hlen
  exact absurd hlen.1 (by simp)

theorem suggestions_sanitized_witness :
    "ok" ∈ sanitizeSuggestions [.jstr "[ok]", .jother, .jstr ""] ∧
    "ok" ≠ "" ∧ "ok".length < 100 :=
  ⟨by decide, suggestions_sanitized [.jstr "[ok]", .jother, .jstr ""] "ok" (by decide)⟩

/-! ## Claim C3: parser fallback on unstructured input -/

/-- No non-blank line of the response starts with a recognized marker. -/
def noMarkerLines (response : String) : Bool :=
  ((strSplitOnChar '\n' response).filter (fun l => strTrim l ≠ "")).all (fun l =>
    !(strStartsWith l "MESSAGE:") && !(strStartsWith l "QUESTION:") &&
    !(strStartsWith l "PARENT:") && !(strStartsWith l "TOPIC") &&
    !(strStartsWith l "NEWTOPIC") && !(strStartsWith l "OPTIONS:"))

lemma parseLines_no_markers {response : String} (goal : String)
    (h : noMarkerLines response = true) :
    parseLines response goal = ⟨defaultMessage goal, [], [], ""⟩ := by
  unfold parseLines
  rw [noMarkerLines, List.all_eq_true] at h
  generalize hls : (strSplitOnChar '\n' response).filter (fun l => strTrim l ≠ "") = ls at h ⊢
  clear hls
  induction ls with
  | nil => rfl
  | cons l t ih =>
      have hl := h l (List.mem_cons_self _ _)
      simp only [Bool.and_eq_true, Bool.not_eq_true'] at hl
      have hstep : parseLine ⟨defaultMessage goal, [], [], ""⟩ l =
          ⟨defaultMessage goal, [], [], ""⟩ := by
        simp [parseLine, hl.1.1.1.1.1, hl.1.1.1.1.2, hl.1.1.1.2, hl.1.1.2, hl.1.2, hl.2]
      simp only [List.foldl_cons, hstep]
      exact ih (fun x hx => h x (List.mem_cons_of_mem _ hx))

/-- C3, amended: on input with no recognized markers, parseAIResponse never
raises (it is a total function), returns the non-empty default assistant
message and no suggestions, and returns not an empty proposal but: on the
first turn exactly one node (the root derived from the goal) and no edges,
and on later turns exactly one fallback node derived from the last user
message together with one edge from the default parent. -/
theorem parser_unstructured_fallback (now : Nat) (response goal : String)
    (existingNodes : List Node) (newNodeId defaultParentId lastUserMessage : String)
    (h : noMarkerLines response = true) :
    (parseAIResponseV50 now response goal existingNodes newNodeId defaultParentId
        lastUserMessage).assistantResponse = defaultMessage goal ∧
    defaultMessage goal ≠ "" ∧
    (parseAIResponseV50 now response goal existingNodes newNodeId defaultParentId
        lastUserMessage).suggestions = [] ∧
    (existingNodes.length = 0 →
      (parseAIResponseV50 now response goal existingNodes newNodeId defaultParentId
          lastUserMessage).updatedMindMap =
        ⟨[⟨"root", strTake goal 30, goal, none⟩], []⟩) ∧
    (existingNodes.length ≠ 0 →
      (parseAIResponseV50 now response goal existingNodes newNodeId defaultParentId
          lastUserMessage).updatedMindMap =
        ⟨[⟨newNodeId, (if lastUserMessage = "" then "New Topic" else lastUserMessage),
            "Details about " ++ lastUserMessage, none⟩],
         [⟨defaultParentId, newNodeId⟩]⟩) := by
  have hmsg : defaultMessage goal ≠ "" := by
    intro hc
    have hlen : (defaultMessage goal).length = 0 := by rw [hc]; rfl
    rw [defaultMessage] at hlen
    simp [String.length_append] at hlen
    exact absurd hlen.2 (by decide)
  by_cases hfirst : existingNodes.length = 0
  · refine ⟨?_, hmsg, ?_, ?_, ?_⟩ <;>
      simp [parseAIResponseV50, parseLines_no_markers goal h, hfirst]
  · refine ⟨?_, hmsg, ?_, ?_, ?_⟩ <;>
      simp [parseAIResponseV50, parseLines_no_markers goal h, hfirst]

theorem parser_unstructured_fallback_witness :
    noMarkerLines "hello world\nplain text only" = true ∧
    ((parseAIResponseV50 5 "hello world\nplain text only" "mygoal" [] "nid" "pid"
        "msg").assistantResponse = defaultMessage "mygoal" ∧
      defaultMessage "mygoal" ≠ "" ∧
      (parseAIResponseV50 5 "hello world\nplain text only" "mygoal" [] "nid" "pid"
        "msg").suggestions = [] ∧
      (([] : List Node).length = 0 →
        (parseAIResponseV50 5 "hello world\nplain text only" "mygoal" [] "nid" "pid"
            "msg").updatedMindMap =
          ⟨[⟨"root", strTake "mygoal" 30, "mygoal", none⟩], []⟩) ∧
      (([] : List Node).length ≠ 0 →
        (parseAIResponseV50 5 "hello world\nplain text only" "mygoal" [] "nid" "pid"
            "msg").updatedMindMap =
          ⟨[⟨"nid", (if "msg" = "" then "New Topic" else "msg"),
              "Details about " ++ "msg", none⟩],
           [⟨"pid", "nid"⟩]⟩)) :=
  ⟨by decide,
   parser_unstructured_fallback 5 "hello world\nplain text only" "mygoal" [] "nid" "pid"
     "msg" (by decide)⟩

/-! ## Claim C4: anchor fallback chain (V53) -/

lemma findRootNode_cons (x : Node) (t : List Node) : findRootNode (x :: t) = some x := by
  simp [findRootNode, List.enum, List.enumFrom]

lemma mostRecent_aux (l : List Node) : ∀ (acc : Option Node) (m : Node),
    l.foldl (fun acc n =>
      match acc with
      | none => some n
      | some k => if getTimestamp n.id > getTimestamp k.id then some n else some k)
      acc = some m →
    (acc = some m ∨ m ∈ l) ∧ (∀ k ∈ l, getTimestamp k.id ≤ getTimestamp m.id) ∧
    (∀ a, acc = some a → getTimestamp a.id ≤ getTimestamp m.id) := by
  induction l with
  | nil =>
      intro acc m h
      simp only [List.foldl_nil] at h
      exact ⟨Or.inl h, by simp, fun a ha => by rw [ha] at h; cases h; exact le_refl _⟩
  | cons x t ih =>
      intro acc m h
      simp only [List.foldl_cons] at h
      obtain ⟨hmem, hmax, hacc⟩ := ih _ m h
      have hstep : ∀ a, (match acc with
          | none => some x
          | some k => if getTimestamp x.id > getTimestamp k.id then some x else some k)
            = some a → a = x ∨ acc = some a := by
        intro a ha
        cases acc with
        | none => simp at ha; exact Or.inl ha.symm
        | some k =>
            by_cases hgt : getTimestamp x.id > getTimestamp k.id
            · simp [hgt] at ha; exact Or.inl ha.symm
            · simp [hgt] at ha; exact Or.inr (by rw [ha])
      have hxle : getTimestamp x.id ≤ getTimestamp m.id := by
        cases acc with
        | none => exact hacc x rfl
        | some k =>
            by_cases hgt : getTimestamp x.id > getTimestamp k.id
            · exact hacc x (by simp [hgt])
            · exact le_trans (not_lt.1 hgt) (hacc k (by simp [hgt]))
      refine ⟨?_, ?_, ?_⟩
      · rcases hmem with hstepacc | hmt
        · rcases hstep m hstepacc with rfl | haccm
          · exact Or.inr (List.mem_cons_self _ _)
          · exact Or.inl haccm
        · exact Or.inr (List.mem_cons_of_mem _ hmt)
      · intro k hk
        rcases List.mem_cons.1 hk with rfl | hkt
        · exact hxle
        · exact hmax k hkt
      · intro a ha
        cases acc with
        | none => cases ha
        | some k =>
            have hk : k = a := Option.some.inj ha
            subst hk
            by_cases hgt : getTimestamp x.id > getTimestamp k.id
            · exact le_trans (le_of_lt hgt) hxle
            · exact hacc k (by simp [hgt])

lemma mostRecentOf_spec {l : List Node} {m : Node} (h : mostRecentOf l = some m) :
    m ∈ l ∧ ∀ k ∈ l, getTimestamp k.id ≤ getTimestamp m.id := by
  obtain ⟨hmem, hmax, -⟩ := mostRecent_aux l none m h
  exact ⟨hmem.resolve_left (by simp), hmax⟩

lemma bestMatch53_fst_le (toks : List String) (rootId? : Option String)
    (l : List Node) (c : ℚ)
    (h : ∀ n ∈ l, (rootId? == some n.id) = false → score53 toks n ≤ c)
    (h0 : (0 : ℚ) ≤ c) : (bestMatch53 toks rootId? l).1 ≤ c := by
  rw [bestMatch53]
  suffices haux : ∀ (acc : ℚ × Option Node), acc.1 ≤ c →
      (l.foldl (fun acc n =>
        if rootId? == some n.id then acc
        else if score53 toks n > acc.1 then (score53 toks n, some n)
        else acc) acc).1 ≤ c by
    exact haux (0, none) h0
  induction l with
  | nil => intro acc hle; simpa using hle
  | cons x t ih =>
      intro acc hle
      simp only [List.foldl_cons]
      by_cases hx : (rootId? == some x.id) = true
      · rw [if_pos hx]
        exact ih (fun n hn => h n (List.mem_cons_of_mem _ hn)) acc hle
      · rw [if_neg hx]
        have hsc : score53 toks x ≤ c :=
          h x (List.mem_cons_self _ _) (Bool.not_eq_true _ ▸ Bool.eq_false_iff.2 hx)
        by_cases hgt : score53 toks x > acc.1
        · rw [if_pos hgt]
          exact ih (fun n hn => h n (List.mem_cons_of_mem _ hn)) _ hsc
        · rw [if_neg hgt]
          exact ih (fun n hn => h n (List.mem_cons_of_mem _ hn)) acc hle

/-- C4: with no declared parent and no token-overlap score above the 0.35
threshold, the V53 anchor resolution falls back in order: to the current
focus node (the default parent) when it is distinct from the root and
defined; else to the non-root node with the maximal embedded creation
timestamp (the most recently created node); else to the root. -/
theorem anchor_fallback_chain (existingNodes : List Node)
    (defaultParentId lastUserMessage : String) (topic : Topic)
    (first : Node) (rest : List Node)
    (hne : existingNodes = first :: rest)
    (hids : ∀ n ∈ existingNodes, n.id ≠ "")
    (hpp : topic.preferredParent = "")
    (hscore : ∀ n ∈ existingNodes, n.id ≠ first.id →
        score53 (searchTokens53 lastUserMessage topic.name) n ≤ 7/20) :
    (defaultParentId ≠ first.id → defaultParentId ≠ "" →
      resolveParentV53 existingNodes defaultParentId lastUserMessage topic
        = defaultParentId) ∧
    (defaultParentId = first.id →
      ∀ m, mostRecentOf (nonRoot53 existingNodes) = some m →
        resolveParentV53 existingNodes defaultParentId lastUserMessage topic = m.id ∧
        m ∈ existingNodes ∧ m.id ≠ first.id ∧
        ∀ k ∈ existingNodes, k.id ≠ first.id →
          getTimestamp k.id ≤ getTimestamp m.id) ∧
    (defaultParentId = first.id → nonRoot53 existingNodes = [] →
      resolveParentV53 existingNodes defaultParentId lastUserMessage topic
        = first.id) := by
  have hroot : rootIdOf existingNodes = some first.id := by
    rw [hne]; simp [rootIdOf, findRootNode_cons]
  have hfid : first.id ≠ "" := hids first (hne ▸ List.mem_cons_self _ _)
  have hbest : (bestMatch53 (searchTokens53 lastUserMessage topic.name)
      (rootIdOf existingNodes) existingNodes).1 ≤ 7/20 := by
    refine bestMatch53_fst_le _ _ _ _ ?_ (by norm_num)
    intro n hn hb
    refine hscore n hn ?_
    rw [hroot] at hb
    intro hc
    rw [hc] at hb
    simp at hb
  have hcond : ¬ ((bestMatch53 (searchTokens53 lastUserMessage topic.name)
      (rootIdOf existingNodes) existingNodes).2.isSome = true ∧
      (bestMatch53 (searchTokens53 lastUserMessage topic.name)
        (rootIdOf existingNodes) existingNodes).1 > 7/20) :=
    fun hc => absurd hc.2 (not_lt.2 hbest)
  refine ⟨?_, ?_, ?_⟩
  · intro hd1 hd2
    have hbeq : ((rootIdOf existingNodes) == some defaultParentId) = false := by
      rw [hroot]
      exact beq_eq_false_iff_ne.2 (by simpa using Ne.symm hd1)
    simp only [resolveParentV53, hpp, ne_eq, not_true_eq_false, if_false,
      if_neg hcond, hbeq, Bool.false_eq_true, if_true]
    simp [hd2]
  · intro hd m hm
    obtain ⟨hmnr, hmax⟩ := mostRecentOf_spec hm
    have hmemE : m ∈ existingNodes := (List.mem_filter.1 hmnr).1
    have hmne : m.id ≠ first.id := by
      have := (List.mem_filter.1 hmnr).2
      rw [nonRoot53] at hmnr
      intro hc
      rw [hroot] at this
      simp [hc] at this
    have hbeq : ((rootIdOf existingNodes) == some defaultParentId) = true := by
      rw [hroot, hd]
      simp
    refine ⟨?_, hmemE, hmne, ?_⟩
    · simp only [resolveParentV53, hpp, ne_eq, not_true_eq_false, if_false,
        if_neg hcond, hbeq, if_true, hm]
      simp [hids m hmemE]
    · intro k hk hkne
      refine hmax k ?_
      rw [nonRoot53, List.mem_filter]
      refine ⟨hk, ?_⟩
      rw [hroot]
      simp [Ne.symm hkne]
  · intro hd hempty
    have hcond2 : ¬ ((bestMatch53 (searchTokens53 lastUserMessage topic.name)
        (some first.id) existingNodes).2.isSome = true ∧
        7/20 < (bestMatch53 (searchTokens53 lastUserMessage topic.name)
          (some first.id) existingNodes).1) := by
      rw [← hroot]
      exact fun hc => hcond ⟨hc.1, hc.2⟩
    have hbeq : ((rootIdOf existingNodes) == some defaultParentId) = true := by
      rw [hroot, hd]
      simp
    have hB : ¬ (¬ first.id = defaultParentId ∧ ¬ defaultParentId = "") := by
      rw [hd]
      simp
    simp only [resolveParentV53, hpp, ne_eq, not_true_eq_false, if_false, hbeq,
      if_true, hempty, mostRecentOf, List.foldl_nil, rootOrDefault, hroot]
    rw [if_neg hcond2]
    simp [hd, hfid]

theorem anchor_fallback_chain_witness :
    (([wRoot] : List Node) = wRoot :: [] ∧ (∀ n ∈ [wRoot], n.id ≠ "") ∧
      (⟨"T", "d", ""⟩ : Topic).preferredParent = "") ∧
    (("root" : String) ≠ wRoot.id → ("root" : String) ≠ "" →
      resolveParentV53 [wRoot] "root" "x" ⟨"T", "d", ""⟩ = "root") ∧
    (("root" : String) = wRoot.id →
      ∀ m, mostRecentOf (nonRoot53 [wRoot]) = some m →
        resolveParentV53 [wRoot] "root" "x" ⟨"T", "d", ""⟩ = m.id ∧
        m ∈ [wRoot] ∧ m.id ≠ wRoot.id ∧
        ∀ k ∈ [wRoot], k.id ≠ wRoot.id →
          getTimestamp k.id ≤ getTimestamp m.id) ∧
    (("root" : String) = wRoot.id → nonRoot53 [wRoot] = [] →
      resolveParentV53 [wRoot] "root" "x" ⟨"T", "d", ""⟩ = wRoot.id) :=
  ⟨⟨by decide, by decide, by decide⟩,
   anchor_fallback_chain [wRoot] "root" "x" ⟨"T", "d", ""⟩ wRoot []
     (by decide) (by decide) (by decide) (by decide)⟩

/-! ## Claims C1 and C2: dangling and duplicate edges -/

lemma strContains_iff {l : List String} {a : String} : l.contains a = true ↔ a ∈ l := by
  simp [List.contains]

lemma mem_of_mem_enumFrom {α : Type} : ∀ {n : Nat} {l : List α} {p : Nat × α},
    p ∈ l.enumFrom n → p.2 ∈ l := by
  intro n l
  induction l generalizing n with
  | nil => intro p hp; simp [List.enumFrom] at hp
  | cons x t ih =>
      intro p hp
      rcases List.mem_cons.1 hp with rfl | hp
      · exact List.mem_cons_self _ _
      · exact List.mem_cons_of_mem _ (ih hp)

lemma exists_enumFrom_of_mem {α : Type} : ∀ {l : List α} {x : α} (n : Nat),
    x ∈ l → ∃ i, (i, x) ∈ l.enumFrom n := by
  intro l
  induction l with
  | nil => intro x n hx; simp at hx
  | cons y t ih =>
      intro x n hx
      rcases List.mem_cons.1 hx with rfl | hx
      · exact ⟨n, List.mem_cons_self _ _⟩
      · obtain ⟨i, hi⟩ := ih (n + 1) hx
        exact ⟨i, List.mem_cons_of_mem _ hi⟩

lemma findRootNode_mem {l : List Node} {rn : Node} (h : findRootNode l = some rn) :
    rn ∈ l := by
  rw [findRootNode] at h
  rcases homap : (l.enum.find? (fun p => strIncludes p.2.id "root" || p.1 == 0)) with _ | p
  · rw [homap] at h; cases h
  · rw [homap] at h
    have hp : p ∈ l.enum := List.mem_of_find?_eq_some homap
    have := @mem_of_mem_enumFrom Node 0 l p (by simpa [List.enum] using hp)
    simpa [← Option.some.inj h] using this

lemma mem_merged_of_mem_st {fs : FreshSrc} {st : MapState} {md : MapData}
    {n : Node} (hn : n ∈ st.nodes) : n.id ∈ allIdsOf fs st md := by
  rw [allIdsOf, mergedNodesOf]
  by_cases hu : ((mergeAccOf fs st md).updated.map (·.id)).contains n.id = true
  · rw [strContains_iff] at hu
    obtain ⟨u, hu1, hu2⟩ := List.mem_map.1 hu
    refine List.mem_map.2 ⟨u, ?_, hu2⟩
    exact List.mem_append_left _ (List.mem_append_right _ hu1)
  · refine List.mem_map.2 ⟨n, ?_, rfl⟩
    refine List.mem_append_left _ (List.mem_append_left _ ?_)
    refine List.mem_filter.2 ⟨hn, ?_⟩
    simpa using hu

lemma mem_merged_of_mem_new {fs : FreshSrc} {st : MapState} {md : MapData}
    {x : String} (hx : x ∈ (mergeAccOf fs st md).newNodes.map (·.id)) :
    x ∈ allIdsOf fs st md := by
  rw [allIdsOf, mergedNodesOf]
  obtain ⟨u, hu1, hu2⟩ := List.mem_map.1 hx
  exact List.mem_map.2 ⟨u, List.mem_append_right _ hu1, hu2⟩

lemma eraseDups_loop_subset {α : Type} [BEq α] [LawfulBEq α] :
    ∀ (as bs : List α) (x : α), x ∈ List.eraseDups.loop as bs → x ∈ as ∨ x ∈ bs := by
  intro as
  induction as with
  | nil => intro bs x hx; exact Or.inr (by simpa [List.eraseDups.loop] using hx)
  | cons a t ih =>
      intro bs x hx
      rw [List.eraseDups.loop] at hx
      rcases helem : bs.elem a with _ | _
      · rw [helem] at hx
        rcases ih _ x hx with h | h
        · exact Or.inl (List.mem_cons_of_mem _ h)
        · rcases List.mem_cons.1 h with rfl | h
          · exact Or.inl (List.mem_cons_self _ _)
          · exact Or.inr h
      · rw [helem] at hx
        rcases ih _ x hx with h | h
        · exact Or.inl (List.mem_cons_of_mem _ h)
        · exact Or.inr h

lemma eraseDups_subset {α : Type} [BEq α] [LawfulBEq α] {l : List α} {x : α}
    (hx : x ∈ l.eraseDups) : x ∈ l := by
  rcases eraseDups_loop_subset l [] x (by simpa [List.eraseDups] using hx) with h | h
  · exact h
  · simp at h

lemma eraseDups_loop_nodup {α : Type} [BEq α] [LawfulBEq α] :
    ∀ (as bs : List α), bs.Nodup → (List.eraseDups.loop as bs).Nodup := by
  intro as
  induction as with
  | nil => intro bs hbs; simpa [List.eraseDups.loop, List.nodup_reverse] using hbs
  | cons a t ih =>
      intro bs hbs
      rw [List.eraseDups.loop]
      rcases helem : bs.elem a with _ | _
      · refine ih _ (List.nodup_cons.2 ⟨?_, hbs⟩)
        intro hmem
        rw [List.elem_eq_mem] at helem
        simp [hmem] at helem
      · exact ih bs hbs

lemma eraseDups_nodup {α : Type} [BEq α] [LawfulBEq α] (l : List α) :
    l.eraseDups.Nodup := by
  rw [List.eraseDups]
  exact eraseDups_loop_nodup l [] List.nodup_nil

/-- C1, amended: after a merge the resulting edge set contains no reference
to a nonexistent node id (given the input graph has none), and a proposed
edge whose remapped target fails to resolve to a live node id is dropped;
but a proposed edge whose remapped source fails to resolve is not dropped:
its source is replaced by the root (first merged node) and, when the
resulting pair is not a pre-existing edge key, the edge is kept. -/
theorem merge_no_dangling_edges (fs : FreshSrc) (st : MapState) (md : MapData)
    (hval : ∀ e ∈ st.edges,
      e.source ∈ st.nodes.map (·.id) ∧ e.target ∈ st.nodes.map (·.id)) :
    (∀ e ∈ (setMindMapFromJSON fs st md).edges,
        e.source ∈ (setMindMapFromJSON fs st md).nodes.map (·.id) ∧
        e.target ∈ (setMindMapFromJSON fs st md).nodes.map (·.id)) ∧
    (∀ pe ∈ md.edges, (processEdgePair fs st md pe).2 ∉ allIdsOf fs st md →
      ∀ e ∈ (setMindMapFromJSON fs st md).edges,
        e.target ≠ (processEdgePair fs st md pe).2) ∧
    (∀ pe ∈ md.edges,
      remapId (mergeAccOf fs st md).idMap pe.source ∉ allIdsOf fs st md →
      (processEdgePair fs st md pe).2 ∈ allIdsOf fs st md →
      (edgeKeysOf st).contains
        (rootFallbackId fs st md ++ "-" ++ (processEdgePair fs st md pe).2) = false →
      ∃ e ∈ (setMindMapFromJSON fs st md).edges,
        e.source = rootFallbackId fs st md ∧
        e.target = (processEdgePair fs st md pe).2) := by
  have hmem3 : ∀ e ∈ (setMindMapFromJSON fs st md).edges,
      e ∈ st.edges ∨ e ∈ aiEdgesOf fs st md ∨ e ∈ orphanEdgesOf fs st md := by
    intro e he
    rw [setMindMapFromJSON] at he
    rcases List.mem_append.1 he with h12 | h3
    · rcases List.mem_append.1 h12 with h1 | h2
      · exact Or.inl h1
      · exact Or.inr (Or.inl h2)
    · exact Or.inr (Or.inr h3)
  have hstId : ∀ {x : String}, x ∈ st.nodes.map (·.id) → x ∈ allIdsOf fs st md := by
    intro x hx
    obtain ⟨n, hn, rfl⟩ := List.mem_map.1 hx
    exact mem_merged_of_mem_st hn
  have hai : ∀ e ∈ aiEdgesOf fs st md,
      e.source ∈ allIdsOf fs st md ∧ e.target ∈ allIdsOf fs st md := by
    intro e he
    obtain ⟨q, hq, rfl⟩ := List.mem_map.1 he
    rw [acceptedOf, List.mem_filter] at hq
    obtain ⟨hq1, hq2⟩ := hq
    simp only [Bool.and_eq_true, decide_eq_true_eq] at hq2
    exact ⟨strContains_iff.1 hq2.1.1, strContains_iff.1 hq2.1.2⟩
  have horph : ∀ e ∈ orphanEdgesOf fs st md,
      e.source ∈ allIdsOf fs st md ∧ e.target ∈ allIdsOf fs st md ∧
      e.target ∈ (mergeAccOf fs st md).newNodes.map (·.id) := by
    intro e he
    rw [orphanEdgesOf] at he
    rcases hfr : findRootNode (mergedNodesOf fs st md) with _ | rn
    · rw [hfr] at he; simp at he
    · rw [hfr] at he
      obtain ⟨oid, hoid, hsome⟩ := List.mem_filterMap.1 he
      rcases hkc : (edgeKeysOf st).contains (rn.id ++ "-" ++ oid) with _ | _
      · rw [hkc] at hsome
        simp only [Bool.false_eq_true, if_neg, not_false_iff, Option.some.injEq] at hsome
        have hoid2 : oid ∈ (mergeAccOf fs st md).newNodes.map (·.id) := by
          rw [needingOf, List.mem_filter] at hoid
          exact eraseDups_subset hoid.1
        have hrm : rn.id ∈ allIdsOf fs st md :=
          List.mem_map.2 ⟨rn, findRootNode_mem hfr, rfl⟩
        rw [← hsome]
        exact ⟨hrm, mem_merged_of_mem_new hoid2, hoid2⟩
      · rw [hkc] at hsome
        simp at hsome
  refine ⟨?_, ?_, ?_⟩
  · intro e he
    rcases hmem3 e he with h | h | h
    · exact ⟨hstId (hval e h).1, hstId (hval e h).2⟩
    · exact hai e h
    · exact ⟨(horph e h).1, (horph e h).2.1⟩
  · intro pe hpe ht e he
    intro hc
    rcases hmem3 e he with h | h | h
    · exact ht (hc ▸ hstId (hval e h).2)
    · exact ht (hc ▸ (hai e h).2)
    · exact ht (hc ▸ (horph e h).2.1)
  · intro pe hpe hs0 htmem hkey
    rcases hmg : mergedNodesOf fs st md with _ | ⟨m, rest⟩
    · rw [allIdsOf, hmg] at htmem
      simp at htmem
    have hroot : rootFallbackId fs st md = m.id := by
      rw [rootFallbackId, hmg, findRootNode_cons]
      rfl
    have hpair : processEdgePair fs st md pe =
        (rootFallbackId fs st md, (processEdgePair fs st md pe).2) := by
      rw [processEdgePair]
      simp only []
      rw [if_neg (by simpa [strContains_iff] using hs0)]
    have hrootmem : rootFallbackId fs st md ∈ allIdsOf fs st md := by
      rw [hroot, allIdsOf, hmg]
      exact List.mem_map.2 ⟨m, List.mem_cons_self _ _, rfl⟩
    obtain ⟨i, hi⟩ := exists_enumFrom_of_mem 0 hpe
    have hq : (processEdgePair fs st md pe, i) ∈ processedOf fs st md := by
      rw [processedOf]
      exact List.mem_map.2 ⟨(i, pe), by simpa [List.enum] using hi, rfl⟩
    have hacc : (processEdgePair fs st md pe, i) ∈ acceptedOf fs st md := by
      rw [acceptedOf, List.mem_filter]
      refine ⟨hq, ?_⟩
      simp only [Bool.and_eq_true, decide_eq_true_eq]
      refine ⟨⟨?_, strContains_iff.2 htmem⟩, ?_⟩
      · rw [hpair]
        exact strContains_iff.2 hrootmem
      · rw [hpair]
        simp only []
        rw [hpair] at hkey
        intro hcon
        rw [hcon] at hkey
        cases hkey
    refine ⟨{ id := "edge-" ++ toString fs.now ++ "-" ++ toString i,
              source := (processEdgePair fs st md pe).1,
              target := (processEdgePair fs st md pe).2 }, ?_, ?_, rfl⟩
    · rw [setMindMapFromJSON]
      refine List.mem_append_left _ (List.mem_append_right _ ?_)
      rw [aiEdgesOf]
      exact List.mem_map.2 ⟨(processEdgePair fs st md pe, i), hacc, rfl⟩
    · exact congrArg Prod.fst hpair

lemma enumFrom_map_snd {α : Type} : ∀ (n : Nat) (l : List α),
    (l.enumFrom n).map Prod.snd = l := by
  intro n l
  induction l generalizing n with
  | nil => rfl
  | cons x t ih => simp [List.enumFrom, ih]

lemma processed_map_fst (fs : FreshSrc) (st : MapState) (md : MapData) :
    (processedOf fs st md).map (·.1) = md.edges.map (processEdgePair fs st md) := by
  rw [processedOf, List.map_map, List.enum]
  have : ((fun p : (String × String) × Nat => p.1) ∘
      fun p : Nat × PropEdge => (processEdgePair fs st md p.2, p.1)) =
      (processEdgePair fs st md) ∘ Prod.snd := rfl
  rw [this, ← List.map_map, enumFrom_map_snd]

lemma accepted_sublist (fs : FreshSrc) (st : MapState) (md : MapData) :
    (acceptedOf fs st md).Sublist (processedOf fs st md) := by
  rw [acceptedOf]
  exact List.filter_sublist _

lemma aiEdges_pairs (fs : FreshSrc) (st : MapState) (md : MapData) :
    (aiEdgesOf fs st md).map (fun e => (e.source, e.target)) =
      (acceptedOf fs st md).map (·.1) := by
  rw [aiEdgesOf, List.map_map]
  rfl

lemma orphan_aux (rn : Node) (keys : List String) (now : Nat) :
    ∀ l : List String, l.Nodup →
    ((l.filterMap (fun oid => if keys.contains (rn.id ++ "-" ++ oid) then none
        else some ({ id := "edge-orphan-" ++ toString now ++ "-" ++ oid,
                     source := rn.id, target := oid } : Edge))).map
      (fun e => (e.source, e.target))).Nodup ∧
    ∀ e ∈ l.filterMap (fun oid => if keys.contains (rn.id ++ "-" ++ oid) then none
        else some ({ id := "edge-orphan-" ++ toString now ++ "-" ++ oid,
                     source := rn.id, target := oid } : Edge)),
      e.target ∈ l ∧ e.source = rn.id ∧
      keys.contains (rn.id ++ "-" ++ e.target) = false := by
  intro l
  induction l with
  | nil => intro h; exact ⟨by simp, by simp⟩
  | cons a t ih =>
      intro h
      obtain ⟨hna, hnd⟩ := List.nodup_cons.1 h
      obtain ⟨ihn, ihm⟩ := ih hnd
      rcases hk : keys.contains (rn.id ++ "-" ++ a) with _ | _
      · have heq : (a :: t).filterMap (fun oid =>
            if keys.contains (rn.id ++ "-" ++ oid) then none
            else some ({ id := "edge-orphan-" ++ toString now ++ "-" ++ oid,
                         source := rn.id, target := oid } : Edge)) =
            ({ id := "edge-orphan-" ++ toString now ++ "-" ++ a,
               source := rn.id, target := a } : Edge) ::
            t.filterMap (fun oid =>
              if keys.contains (rn.id ++ "-" ++ oid) then none
              else some ({ id := "edge-orphan-" ++ toString now ++ "-" ++ oid,
                           source := rn.id, target := oid } : Edge)) := by
          have hk2 : rn.id ++ "-" ++ a ∉ keys := by simpa using hk
          simp [hk2]
        constructor
        · rw [heq, List.map_cons, List.nodup_cons]
          refine ⟨?_, ihn⟩
          intro hmem
          obtain ⟨e, he, hpe⟩ := List.mem_map.1 hmem
          have hta : e.target = a := by simpa using congrArg Prod.snd hpe
          have := (ihm e he).1
          rw [hta] at this
          exact hna this
        · intro e he
          rw [heq] at he
          rcases List.mem_cons.1 he with rfl | he2
          · exact ⟨List.mem_cons_self _ _, rfl, hk⟩
          · obtain ⟨h1, h2, h3⟩ := ihm e he2
            exact ⟨List.mem_cons_of_mem _ h1, h2, h3⟩
      · have heq : (a :: t).filterMap (fun oid =>
            if keys.contains (rn.id ++ "-" ++ oid) then none
            else some ({ id := "edge-orphan-" ++ toString now ++ "-" ++ oid,
                         source := rn.id, target := oid } : Edge)) =
            t.filterMap (fun oid =>
              if keys.contains (rn.id ++ "-" ++ oid) then none
              else some ({ id := "edge-orphan-" ++ toString now ++ "-" ++ oid,
                           source := rn.id, target := oid } : Edge)) := by
          have hk2 : rn.id ++ "-" ++ a ∈ keys := by simpa using hk
          simp [hk2]
        constructor
        · rw [heq]
          exact ihn
        · intro e he
          rw [heq] at he
          obtain ⟨h1, h2, h3⟩ := ihm e he
          exact ⟨List.mem_cons_of_mem _ h1, h2, h3⟩

lemma needing_nodup (fs : FreshSrc) (st : MapState) (md : MapData) :
    (needingOf fs st md).Nodup := by
  rw [needingOf]
  exact (eraseDups_nodup _).filter _

lemma needing_not_processed_target {fs : FreshSrc} {st : MapState} {md : MapData}
    {x : String} (hx : x ∈ needingOf fs st md) :
    ∀ q ∈ processedOf fs st md, q.1.2 ≠ x := by
  rw [needingOf, List.mem_filter] at hx
  intro q hq hc
  have := hx.2
  simp only [decide_eq_true_eq] at this
  exact this (List.any_eq_true.2 ⟨q, hq, by simp [hc]⟩)

/-- C2, amended: provided the input graph satisfies the edge-uniqueness
invariant and the processed (remapped and source-redirected) proposed edges
are pairwise distinct as (source, target) pairs, the merged graph contains
no duplicate (source, target) pair.  (The extra proviso is forced by the
counterexample: two proposed edges processing to the same pair are both
added, because the duplicate filter only consults pre-merge edge keys.) -/
theorem merge_no_duplicate_edges (fs : FreshSrc) (st : MapState) (md : MapData)
    (h1 : ((st.edges).map (fun e => (e.source, e.target))).Nodup)
    (h2 : ((md.edges).map (processEdgePair fs st md)).Nodup) :
    (((setMindMapFromJSON fs st md).edges).map (fun e => (e.source, e.target))).Nodup := by
  have hkey : ∀ p : String × String, p ∈ st.edges.map (fun e => (e.source, e.target)) →
      (edgeKeysOf st).contains (p.1 ++ "-" ++ p.2) = true := by
    intro p hp
    obtain ⟨e, he, rfl⟩ := List.mem_map.1 hp
    rw [strContains_iff, edgeKeysOf]
    exact List.mem_map.2 ⟨e, he, rfl⟩
  have haiNodup : ((aiEdgesOf fs st md).map (fun e => (e.source, e.target))).Nodup := by
    rw [aiEdges_pairs]
    have hs : ((acceptedOf fs st md).map (·.1)).Sublist
        ((processedOf fs st md).map (·.1)) := (accepted_sublist fs st md).map _
    rw [processed_map_fst] at hs
    exact h2.sublist hs
  have haiKey : ∀ p : String × String,
      p ∈ (aiEdgesOf fs st md).map (fun e => (e.source, e.target)) →
      (edgeKeysOf st).contains (p.1 ++ "-" ++ p.2) = false ∧
      ∃ q ∈ processedOf fs st md, q.1 = p := by
    intro p hp
    rw [aiEdges_pairs] at hp
    obtain ⟨q, hq, rfl⟩ := List.mem_map.1 hp
    rw [acceptedOf, List.mem_filter] at hq
    obtain ⟨hq1, hq2⟩ := hq
    simp only [Bool.and_eq_true, decide_eq_true_eq] at hq2
    refine ⟨?_, q, hq1, rfl⟩
    rcases hkc : (edgeKeysOf st).contains (q.1.1 ++ "-" ++ q.1.2) with _ | _
    · rfl
    · exact absurd hkc hq2.2
  rw [setMindMapFromJSON]
  simp only [List.map_append]
  rw [List.append_assoc, List.nodup_append]
  refine ⟨h1, ?_, ?_⟩
  · rw [List.nodup_append]
    rcases hfr : findRootNode (mergedNodesOf fs st md) with _ | rn
    · refine ⟨haiNodup, ?_, ?_⟩
      · rw [orphanEdgesOf, hfr]; simp
      · rw [orphanEdgesOf, hfr]; simp [List.Disjoint]
    · obtain ⟨hon, hom⟩ := orphan_aux rn (edgeKeysOf st) fs.now (needingOf fs st md)
        (needing_nodup fs st md)
      refine ⟨haiNodup, ?_, ?_⟩
      · rw [orphanEdgesOf, hfr]
        exact hon
      · intro p hpai hporph
        obtain ⟨-, q, hq, hq1⟩ := haiKey p hpai
        rw [orphanEdgesOf, hfr] at hporph
        obtain ⟨e, he, hpe⟩ := List.mem_map.1 hporph
        obtain ⟨ht1, -, -⟩ := hom e he
        have : q.1.2 ≠ e.target := needing_not_processed_target ht1 q hq
        apply this
        rw [hq1, ← hpe]
  · intro p hpst hpother
    rcases List.mem_append.1 hpother with hpai | hporph
    · have hf := (haiKey p hpai).1
      rw [hkey p hpst] at hf
      cases hf
    · rw [orphanEdgesOf] at hporph
      rcases hfr : findRootNode (mergedNodesOf fs st md) with _ | rn
      · rw [hfr] at hporph; simp at hporph
      · rw [hfr] at hporph
        obtain ⟨e, he, hpe⟩ := List.mem_map.1 hporph
        obtain ⟨-, hsrc, hkc⟩ := (orphan_aux rn (edgeKeysOf st) fs.now
          (needingOf fs st md) (needing_nodup fs st md)).2 e he
        have := hkey p hpst
        rw [← hpe] at this
        rw [hsrc] at this
        rw [hkc] at this
        cases this

def c1St : MapState := ⟨[wRoot, wA], [⟨"e0", "root", "a"⟩]⟩
def c1Md : MapData := ⟨[], [⟨"zzz", "a"⟩], []⟩

theorem merge_no_dangling_edges_witness :
    (∀ e ∈ c1St.edges,
      e.source ∈ c1St.nodes.map (·.id) ∧ e.target ∈ c1St.nodes.map (·.id)) ∧
    ((∀ e ∈ (setMindMapFromJSON fsW c1St c1Md).edges,
        e.source ∈ (setMindMapFromJSON fsW c1St c1Md).nodes.map (·.id) ∧
        e.target ∈ (setMindMapFromJSON fsW c1St c1Md).nodes.map (·.id)) ∧
     (∀ pe ∈ c1Md.edges,
        (processEdgePair fsW c1St c1Md pe).2 ∉ allIdsOf fsW c1St c1Md →
        ∀ e ∈ (setMindMapFromJSON fsW c1St c1Md).edges,
          e.target ≠ (processEdgePair fsW c1St c1Md pe).2) ∧
     (∀ pe ∈ c1Md.edges,
        remapId (mergeAccOf fsW c1St c1Md).idMap pe.source ∉ allIdsOf fsW c1St c1Md →
        (processEdgePair fsW c1St c1Md pe).2 ∈ allIdsOf fsW c1St c1Md →
        (edgeKeysOf c1St).contains
          (rootFallbackId fsW c1St c1Md ++ "-" ++
            (processEdgePair fsW c1St c1Md pe).2) = false →
        ∃ e ∈ (setMindMapFromJSON fsW c1St c1Md).edges,
          e.source = rootFallbackId fsW c1St c1Md ∧
          e.target = (processEdgePair fsW c1St c1Md pe).2)) :=
  ⟨by decide, merge_no_dangling_edges fsW c1St c1Md (by decide)⟩

def c2St : MapState := ⟨[wRoot, wA, wB], [⟨"e0", "root", "a"⟩]⟩
def c2Md : MapData := ⟨[], [⟨"a", "b"⟩], []⟩

theorem merge_no_duplicate_edges_witness :
    ((c2St.edges).map (fun e => (e.source, e.target))).Nodup ∧
    ((c2Md.edges).map (processEdgePair fsW c2St c2Md)).Nodup ∧
    (((setMindMapFromJSON fsW c2St c2Md).edges).map
      (fun e => (e.source, e.target))).Nodup :=
  ⟨by decide, by decide,
   merge_no_duplicate_edges fsW c2St c2Md (by decide) (by decide)⟩


lemma any_id_eq_filter_ne {l : List Node} {x : String} :
    l.any (fun un => un.id == x) = true ↔ l.filter (fun u => u.id == x) ≠ [] := by
  rw [List.any_eq_true]
  constructor
  · rintro ⟨u, hu, hbeq⟩ hc
    have : u ∈ l.filter (fun u => u.id == x) := List.mem_filter.2 ⟨hu, hbeq⟩
    rw [hc] at this
    simp at this
  · intro hne
    rcases hfe : l.filter (fun u => u.id == x) with _ | ⟨u, rest⟩
    · exact absurd hfe hne
    · have : u ∈ l.filter (fun u => u.id == x) := by
        rw [hfe]; exact List.mem_cons_self _ _
      obtain ⟨hu, hb⟩ := List.mem_filter.1 this
      exact ⟨u, hu, hb⟩

lemma processNode_not_root (fs : FreshSrc) (byId : List (String × Node))
    (acc : MergeAcc) (k : Nat) (m : PropNode)
    (hskip : ¬ normLabel m.label = "")
    (hnr : ¬(m.id = "root" ∧ (List.lookup "root" byId).isSome)) :
    processNode fs byId acc k m =
      (match List.lookup (normLabel m.label) acc.byLabel with
      | some ex =>
          let acc1 := { acc with idMap := (m.id, ex.id) :: acc.idMap }
          if m.description ≠ "" ∧ m.description ≠ ex.data.description ∧
              ¬ acc.updated.any (fun un => un.id == ex.id) then
            { acc1 with updated := acc1.updated ++
                [{ ex with data := { ex.data with description := m.description } }] }
          else acc1
      | none =>
          let newId := newIdAt fs k
          { acc with
            idMap := (m.id, newId) :: acc.idMap,
            newNodes := acc.newNodes ++
              [{ id := newId, position := fs.pos k,
                 data := { label := m.label, description := m.description,
                           imageUrl := m.imageUrl },
                 type := "expandable" }],
            byLabel := (normLabel m.label,
              { id := newId, position := (0, 0),
                data := { label := m.label, description := m.description,
                          imageUrl := none },
                type := "" }) :: acc.byLabel }) := by
  by_cases hmr : m.id = "root"
  · have hbyid : List.lookup m.id byId = none := by
      rcases h : List.lookup m.id byId with _ | v
      · rfl
      · exact absurd ⟨hmr, by rw [← hmr, h]; rfl⟩ hnr
    rw [hmr] at hbyid
    simp only [processNode, hskip, if_neg, hmr, if_true, hbyid]
    simp only [if_false]
  · simp only [processNode, hskip, if_neg, hmr, if_false]

/-- The first proposal node that triggers a description update of X. -/
def firstTrigger (L : String) (X : Node) (ns : List PropNode) : Option PropNode :=
  (ns.filter (fun m => normLabel m.label == L && m.description != "" &&
    m.description != X.data.description)).head?

lemma processNodes_label_aux (fs : FreshSrc) (byId : List (String × Node))
    (L : String) (X : Node) (nid : String) (hL : L ≠ "")
    (hfreshX : ∀ i, newIdAt fs i ≠ X.id) :
    ∀ (ns : List PropNode) (k : Nat) (acc : MergeAcc),
    (∀ m ∈ ns, ¬(m.id = "root" ∧ (List.lookup "root" byId).isSome)) →
    (∀ m ∈ ns, m.id = nid → normLabel m.label = L) →
    List.lookup L acc.byLabel = some X →
    (∀ lbl v, lbl ≠ L → List.lookup lbl acc.byLabel = some v → v.id ≠ X.id) →
    (∀ m ∈ acc.newNodes, normLabel m.data.label ≠ L ∧ m.id ≠ X.id) →
    (List.lookup L ((ns.enumFrom k).foldl
        (fun a p => processNode fs byId a p.1 p.2) acc).byLabel = some X) ∧
    (∀ m ∈ ((ns.enumFrom k).foldl
        (fun a p => processNode fs byId a p.1 p.2) acc).newNodes,
      normLabel m.data.label ≠ L ∧ m.id ≠ X.id) ∧
    ((∃ m ∈ ns, m.id = nid) →
      List.lookup nid ((ns.enumFrom k).foldl
        (fun a p => processNode fs byId a p.1 p.2) acc).idMap = some X.id) ∧
    (List.lookup nid acc.idMap = some X.id →
      List.lookup nid ((ns.enumFrom k).foldl
        (fun a p => processNode fs byId a p.1 p.2) acc).idMap = some X.id) ∧
    (((ns.enumFrom k).foldl
        (fun a p => processNode fs byId a p.1 p.2) acc).updated.filter
          (fun u => u.id == X.id) =
      (if acc.updated.filter (fun u => u.id == X.id) = [] then
        match firstTrigger L X ns with
        | some m => [{ X with data := { X.data with description := m.description } }]
        | none => []
      else acc.updated.filter (fun u => u.id == X.id))) := by
  intro ns
  induction ns with
  | nil =>
      intro k acc hroot hid ha hb hnew
      simp only [List.enumFrom, List.foldl_nil]
      refine ⟨ha, hnew, ?_, fun h => h, ?_⟩
      · rintro ⟨m, hm, -⟩
        simp at hm
      · rw [firstTrigger]
        simp only [List.filter_nil, List.head?_nil]
        by_cases hc : acc.updated.filter (fun u => u.id == X.id) = []
        · rw [if_pos hc, hc]
        · rw [if_neg hc]
  | cons m t ih =>
      intro k acc hroot hid ha hb hnew
      have hrootm := hroot m (List.mem_cons_self _ _)
      have hroott : ∀ m2 ∈ t, ¬(m2.id = "root" ∧ (List.lookup "root" byId).isSome) :=
        fun m2 hm2 => hroot m2 (List.mem_cons_of_mem _ hm2)
      have hidt : ∀ m2 ∈ t, m2.id = nid → normLabel m2.label = L :=
        fun m2 hm2 => hid m2 (List.mem_cons_of_mem _ hm2)
      simp only [List.enumFrom, List.foldl_cons]
      by_cases hskip : normLabel m.label = ""
      · have hmne : m.id ≠ nid := by
          intro hc
          have hLm := hid m (List.mem_cons_self _ _) hc
          rw [hskip] at hLm
          exact hL hLm.symm
        have hstep : processNode fs byId acc k m = acc := by
          simp [processNode, hskip]
        rw [hstep]
        obtain ⟨c1, c2, c3, c4, c5⟩ := ih (k + 1) acc hroott hidt ha hb hnew
        have hft : firstTrigger L X (m :: t) = firstTrigger L X t := by
          have hne2 : ("" : String) ≠ L := fun hc => hL hc.symm
          rw [firstTrigger, firstTrigger, List.filter_cons]
          simp [hskip, hne2]
        refine ⟨c1, c2, ?_, c4, ?_⟩
        · rintro ⟨m2, hm2, hm2id⟩
          rcases List.mem_cons.1 hm2 with rfl | hm2t
          · exact absurd hm2id hmne
          · exact c3 ⟨m2, hm2t, hm2id⟩
        · rw [c5, hft]
      · by_cases hlbl : normLabel m.label = L
        · have hlook : List.lookup (normLabel m.label) acc.byLabel = some X := by
            rw [hlbl]; exact ha
          by_cases hdesc : m.description ≠ "" ∧ m.description ≠ X.data.description
          · by_cases hany : acc.updated.any (fun un => un.id == X.id) = true
            · -- already updated this merge: no second push
              set acc2 : MergeAcc :=
                { acc with idMap := (m.id, X.id) :: acc.idMap } with hacc2
              have hstep : processNode fs byId acc k m = acc2 := by
                rw [processNode_not_root fs byId acc k m hskip hrootm]
                simp only [hlook]
                rw [if_neg (fun hc => hc.2.2 hany)]
              rw [hstep]
              obtain ⟨c1, c2, c3, c4, c5⟩ := ih (k + 1) acc2 hroott hidt ha hb hnew
              have hfne : acc.updated.filter (fun u => u.id == X.id) ≠ [] :=
                any_id_eq_filter_ne.1 hany
              have hupd : acc2.updated = acc.updated := rfl
              rw [hupd] at c5
              rw [if_neg hfne] at c5
              refine ⟨c1, c2, ?_, ?_, ?_⟩
              · rintro ⟨m2, hm2, hm2id⟩
                rcases List.mem_cons.1 hm2 with heq | hm2t
                · apply c4
                  rw [heq] at hm2id
                  rw [← hm2id]
                  show List.lookup m.id ((m.id, X.id) :: acc.idMap) = some X.id
                  simp [List.lookup]
                · exact c3 ⟨m2, hm2t, hm2id⟩
              · intro h4
                apply c4
                show List.lookup nid ((m.id, X.id) :: acc.idMap) = some X.id
                by_cases hq : (nid == m.id) = true
                · simp [List.lookup, hq]
                · have hq2 : (nid == m.id) = false := by simpa using hq
                  simp only [List.lookup, hq2]
                  exact h4
              · rw [c5, if_neg hfne]
            · -- first trigger: push the description update
              have hfe : acc.updated.filter (fun u => u.id == X.id) = [] := by
                by_contra hc
                exact hany (any_id_eq_filter_ne.2 hc)
              set Xd : Node :=
                { X with data := { X.data with description := m.description } } with hXd
              set acc2 : MergeAcc :=
                { updated := acc.updated ++ [Xd], newNodes := acc.newNodes,
                  idMap := (m.id, X.id) :: acc.idMap, byLabel := acc.byLabel } with hacc2
              have hstep : processNode fs byId acc k m = acc2 := by
                rw [processNode_not_root fs byId acc k m hskip hrootm]
                simp only [hlook]
                rw [if_pos ⟨hdesc.1, hdesc.2, hany⟩]
              rw [hstep]
              obtain ⟨c1, c2, c3, c4, c5⟩ := ih (k + 1) acc2 hroott hidt ha hb hnew
              have hfX : List.filter (fun u => u.id == X.id) acc2.updated = [Xd] := by
                show List.filter (fun u => u.id == X.id) (acc.updated ++ [Xd]) = [Xd]
                rw [List.filter_append, hfe, List.nil_append]
                simp [hXd]
              rw [hfX] at c5
              rw [if_neg (List.cons_ne_nil Xd [])] at c5
              have hft : firstTrigger L X (m :: t) = some m := by
                rw [firstTrigger, List.filter_cons]
                have h1 : (normLabel m.label == L) = true := by
                  rw [hlbl]; exact beq_self_eq_true _
                have h2 : (m.description != "") = true := bne_iff_ne.2 hdesc.1
                have h3 : (m.description != X.data.description) = true := bne_iff_ne.2 hdesc.2
                simp [h1, h2, h3]
              refine ⟨c1, c2, ?_, ?_, ?_⟩
              · rintro ⟨m2, hm2, hm2id⟩
                rcases List.mem_cons.1 hm2 with heq | hm2t
                · apply c4
                  rw [heq] at hm2id
                  rw [← hm2id]
                  show List.lookup m.id ((m.id, X.id) :: acc.idMap) = some X.id
                  simp [List.lookup]
                · exact c3 ⟨m2, hm2t, hm2id⟩
              · intro h4
                apply c4
                show List.lookup nid ((m.id, X.id) :: acc.idMap) = some X.id
                by_cases hq : (nid == m.id) = true
                · simp [List.lookup, hq]
                · have hq2 : (nid == m.id) = false := by simpa using hq
                  simp only [List.lookup, hq2]
                  exact h4
              · rw [c5, if_pos hfe, hft]
          · -- description conditions fail: no push
            set acc2 : MergeAcc :=
              { acc with idMap := (m.id, X.id) :: acc.idMap } with hacc2
            have hstep : processNode fs byId acc k m = acc2 := by
              rw [processNode_not_root fs byId acc k m hskip hrootm]
              simp only [hlook]
              rw [if_neg (fun hc => hdesc ⟨hc.1, hc.2.1⟩)]
            rw [hstep]
            obtain ⟨c1, c2, c3, c4, c5⟩ := ih (k + 1) acc2 hroott hidt ha hb hnew
            have hupd : acc2.updated = acc.updated := rfl
            rw [hupd] at c5
            have hft : firstTrigger L X (m :: t) = firstTrigger L X t := by
              rw [firstTrigger, firstTrigger, List.filter_cons]
              have hd : m.description = "" ∨ m.description = X.data.description := by
                by_cases h1 : m.description = ""
                · exact Or.inl h1
                · by_cases h2 : m.description = X.data.description
                  · exact Or.inr h2
                  · exact absurd ⟨h1, h2⟩ hdesc
              rcases hd with hd | hd
              · simp [hd]
              · simp [hd]
            refine ⟨c1, c2, ?_, ?_, ?_⟩
            · rintro ⟨m2, hm2, hm2id⟩
              rcases List.mem_cons.1 hm2 with heq | hm2t
              · apply c4
                rw [heq] at hm2id
                rw [← hm2id]
                show List.lookup m.id ((m.id, X.id) :: acc.idMap) = some X.id
                simp [List.lookup]
              · exact c3 ⟨m2, hm2t, hm2id⟩
            · intro h4
              apply c4
              show List.lookup nid ((m.id, X.id) :: acc.idMap) = some X.id
              by_cases hq : (nid == m.id) = true
              · simp [List.lookup, hq]
              · have hq2 : (nid == m.id) = false := by simpa using hq
                simp only [List.lookup, hq2]
                exact h4
            · rw [c5, hft]
        · -- the proposed label is a different key
          have hmne : m.id ≠ nid := fun hc => hlbl (hid m (List.mem_cons_self _ _) hc)
          have hbeqf : (normLabel m.label == L) = false := beq_eq_false_iff_ne.2 hlbl
          have hft : firstTrigger L X (m :: t) = firstTrigger L X t := by
            rw [firstTrigger, firstTrigger, List.filter_cons]
            simp [hbeqf]
          rcases hex : List.lookup (normLabel m.label) acc.byLabel with _ | ex
          · -- brand new label: stub registered, new node appended
            set nn : Node :=
              { id := newIdAt fs k, position := fs.pos k,
                data := { label := m.label, description := m.description,
                          imageUrl := m.imageUrl },
                type := "expandable" } with hnn
            set stub : Node :=
              { id := newIdAt fs k, position := (0, 0),
                data := { label := m.label, description := m.description,
                          imageUrl := none },
                type := "" } with hstub
            set acc2 : MergeAcc :=
              { updated := acc.updated, newNodes := acc.newNodes ++ [nn],
                idMap := (m.id, newIdAt fs k) :: acc.idMap,
                byLabel := (normLabel m.label, stub) :: acc.byLabel } with hacc2
            have hstep : processNode fs byId acc k m = acc2 := by
              rw [processNode_not_root fs byId acc k m hskip hrootm]
              simp only [hex]
            rw [hstep]
            have hLne : (L == normLabel m.label) = false :=
              beq_eq_false_iff_ne.2 (Ne.symm hlbl)
            have ha2 : List.lookup L acc2.byLabel = some X := by
              show List.lookup L ((normLabel m.label, stub) :: acc.byLabel) = some X
              simp only [List.lookup, hLne]
              exact ha
            have hb2 : ∀ lbl v, lbl ≠ L →
                List.lookup lbl acc2.byLabel = some v → v.id ≠ X.id := by
              intro lbl v hne hlk
              have hlk2 : List.lookup lbl ((normLabel m.label, stub) :: acc.byLabel) =
                  some v := hlk
              by_cases hq : (lbl == normLabel m.label) = true
              · simp only [List.lookup, hq] at hlk2
                have hv : stub = v := by injection hlk2
                rw [← hv]
                exact hfreshX k
              · have hq2 : (lbl == normLabel m.label) = false := by simpa using hq
                simp only [List.lookup, hq2] at hlk2
                exact hb lbl v hne hlk2
            have hnew2 : ∀ m2 ∈ acc2.newNodes,
                normLabel m2.data.label ≠ L ∧ m2.id ≠ X.id := by
              intro m2 hm2
              have hm2b : m2 ∈ acc.newNodes ++ [nn] := hm2
              rcases List.mem_append.1 hm2b with h | h
              · exact hnew m2 h
              · have hv : m2 = nn := by simpa using h
                rw [hv]
                exact ⟨hlbl, hfreshX k⟩
            obtain ⟨c1, c2, c3, c4, c5⟩ := ih (k + 1) acc2 hroott hidt ha2 hb2 hnew2
            have hupd : acc2.updated = acc.updated := rfl
            rw [hupd] at c5
            refine ⟨c1, c2, ?_, ?_, ?_⟩
            · rintro ⟨m2, hm2, hm2id⟩
              rcases List.mem_cons.1 hm2 with heq | hm2t
              · rw [heq] at hm2id
                exact absurd hm2id hmne
              · exact c3 ⟨m2, hm2t, hm2id⟩
            · intro h4
              apply c4
              show List.lookup nid ((m.id, newIdAt fs k) :: acc.idMap) = some X.id
              have hq : (nid == m.id) = false := beq_eq_false_iff_ne.2 (Ne.symm hmne)
              simp only [List.lookup, hq]
              exact h4
            · rw [c5, hft]
          · -- another existing label: remap to it, maybe update it
            have hexid : ex.id ≠ X.id := hb (normLabel m.label) ex hlbl hex
            by_cases hcond : m.description ≠ "" ∧ m.description ≠ ex.data.description ∧
                ¬ acc.updated.any (fun un => un.id == ex.id) = true
            · set exd : Node :=
                { ex with data := { ex.data with description := m.description } } with hexd
              set acc2 : MergeAcc :=
                { updated := acc.updated ++ [exd], newNodes := acc.newNodes,
                  idMap := (m.id, ex.id) :: acc.idMap, byLabel := acc.byLabel } with hacc2
              have hstep : processNode fs byId acc k m = acc2 := by
                rw [processNode_not_root fs byId acc k m hskip hrootm]
                simp only [hex]
                rw [if_pos hcond]
              rw [hstep]
              obtain ⟨c1, c2, c3, c4, c5⟩ := ih (k + 1) acc2 hroott hidt ha hb hnew
              have hbf : (exd.id == X.id) = false := beq_eq_false_iff_ne.2 hexid
              have hfilEq : List.filter (fun u => u.id == X.id) acc2.updated =
                  List.filter (fun u => u.id == X.id) acc.updated := by
                show List.filter (fun u => u.id == X.id) (acc.updated ++ [exd]) = _
                rw [List.filter_append]
                simp [hbf]
              rw [hfilEq] at c5
              refine ⟨c1, c2, ?_, ?_, ?_⟩
              · rintro ⟨m2, hm2, hm2id⟩
                rcases List.mem_cons.1 hm2 with heq | hm2t
                · rw [heq] at hm2id
                  exact absurd hm2id hmne
                · exact c3 ⟨m2, hm2t, hm2id⟩
              · intro h4
                apply c4
                show List.lookup nid ((m.id, ex.id) :: acc.idMap) = some X.id
                have hq : (nid == m.id) = false := beq_eq_false_iff_ne.2 (Ne.symm hmne)
                simp only [List.lookup, hq]
                exact h4
              · rw [c5, hft]
            · set acc2 : MergeAcc :=
                { acc with idMap := (m.id, ex.id) :: acc.idMap } with hacc2
              have hstep : processNode fs byId acc k m = acc2 := by
                rw [processNode_not_root fs byId acc k m hskip hrootm]
                simp only [hex]
                rw [if_neg hcond]
              rw [hstep]
              obtain ⟨c1, c2, c3, c4, c5⟩ := ih (k + 1) acc2 hroott hidt ha hb hnew
              have hupd : acc2.updated = acc.updated := rfl
              rw [hupd] at c5
              refine ⟨c1, c2, ?_, ?_, ?_⟩
              · rintro ⟨m2, hm2, hm2id⟩
                rcases List.mem_cons.1 hm2 with heq | hm2t
                · rw [heq] at hm2id
                  exact absurd hm2id hmne
                · exact c3 ⟨m2, hm2t, hm2id⟩
              · intro h4
                apply c4
                show List.lookup nid ((m.id, ex.id) :: acc.idMap) = some X.id
                have hq : (nid == m.id) = false := beq_eq_false_iff_ne.2 (Ne.symm hmne)
                simp only [List.lookup, hq]
                exact h4
              · rw [c5, hft]

lemma lookup_pair_mem {ps : List (String × Node)} {k : String} {v : Node}
    (h : List.lookup k ps = some v) : (k, v) ∈ ps := by
  induction ps with
  | nil => simp [List.lookup] at h
  | cons p t ih =>
      obtain ⟨a, b⟩ := p
      by_cases hq : (k == a) = true
      · simp only [List.lookup, hq] at h
        have hk : k = a := eq_of_beq hq
        injection h with hv
        rw [hk, hv]
        exact List.mem_cons_self _ _
      · have hq2 : (k == a) = false := by simpa using hq
        simp only [List.lookup, hq2] at h
        exact List.mem_cons_of_mem _ (ih h)

lemma byLabel_pair {l : List Node} {k : String} {v : Node}
    (h : (k, v) ∈ byLabelMap l) : v ∈ l ∧ k = normLabel v.data.label := by
  rw [byLabelMap, List.mem_reverse] at h
  obtain ⟨n1, hn1, heq⟩ := List.mem_map.1 h
  cases heq
  exact ⟨hn1, rfl⟩

lemma filter_comm_id {l : List Node} {p : Node → Bool} {x : String}
    (h : ∀ nd ∈ l, nd.id = x → p nd = true) :
    (l.filter p).filter (fun u => u.id == x) = l.filter (fun u => u.id == x) := by
  induction l with
  | nil => simp
  | cons a t ih =>
      have ht := ih (fun nd hnd => h nd (List.mem_cons_of_mem _ hnd))
      by_cases hax : (a.id == x) = true
      · have hpa : p a = true := h a (List.mem_cons_self _ _) (eq_of_beq hax)
        simp [List.filter_cons, hpa, hax, ht]
      · have hax2 : (a.id == x) = false := by simpa using hax
        by_cases hpa : p a = true
        · simp [List.filter_cons, hpa, hax2, ht]
        · have hpa2 : p a = false := by simpa using hpa
          simp [List.filter_cons, hpa2, hax2, ht]

/-- C6, amended: on the non-root path the merge deduplicates by normalized
label.  Provided no proposal node takes the root-update branch, fresh ids
avoid the existing id, existing ids are distinct, there are no explicit
node updates, and every proposal node sharing the id of n carries the same
normalized label, a proposal node n whose normalized label resolves to the
existing node X (1) remaps the proposal-local id to X.id, so every proposed
edge endpoint naming n resolves to X, (2) creates no new node with that
label, and (3) leaves exactly one node with X.id in the merged graph, whose
description is rewritten at most once per merge, namely by the first
proposal node with that label carrying a non-empty differing description. -/
theorem merge_label_dedup (fs : FreshSrc) (st : MapState) (md : MapData)
    (n : PropNode) (X : Node)
    (hnd : (st.nodes.map (·.id)).Nodup)
    (hupd : md.nodeUpdates = [])
    (hn : n ∈ md.nodes)
    (hlbl : List.lookup (normLabel n.label) (byLabelMap st.nodes) = some X)
    (hL : normLabel n.label ≠ "")
    (hroot : ∀ m ∈ md.nodes,
      ¬(m.id = "root" ∧ (List.lookup "root" (byIdMap st.nodes)).isSome))
    (hsame : ∀ m ∈ md.nodes, m.id = n.id → normLabel m.label = normLabel n.label)
    (hfresh : ∀ i, newIdAt fs i ≠ X.id) :
    remapId (mergeAccOf fs st md).idMap n.id = X.id ∧
    (∀ m ∈ (mergeAccOf fs st md).newNodes,
      normLabel m.data.label ≠ normLabel n.label) ∧
    (setMindMapFromJSON fs st md).nodes.filter (fun u => u.id == X.id) =
      (match firstTrigger (normLabel n.label) X md.nodes with
       | some m => [{ X with data := { X.data with description := m.description } }]
       | none => [X]) := by
  obtain ⟨hXst, hLX⟩ := byLabel_pair (lookup_pair_mem hlbl)
  set acc0 : MergeAcc := ⟨[], [], [], byLabelMap st.nodes⟩ with hacc0
  set F : MergeAcc := (md.nodes.enumFrom 0).foldl
    (fun a p => processNode fs (byIdMap st.nodes) a p.1 p.2) acc0 with hF
  have hacc : mergeAccOf fs st md = F := by
    rw [hF, hacc0]
    simp [mergeAccOf, processNodes, List.enum, hupd, initUpdates]
  have hbA : ∀ lbl v, lbl ≠ normLabel n.label →
      List.lookup lbl acc0.byLabel = some v → v.id ≠ X.id := by
    intro lbl v hne hlk hidq
    obtain ⟨hvmem, hlblv⟩ := byLabel_pair (lookup_pair_mem hlk)
    have hvX : v = X := List.inj_on_of_nodup_map hnd hvmem hXst hidq
    rw [hvX, ← hLX] at hlblv
    exact hne hlblv
  have hnewA : ∀ m ∈ acc0.newNodes, normLabel m.data.label ≠ normLabel n.label ∧
      m.id ≠ X.id := by
    intro m hm
    simp [hacc0] at hm
  obtain ⟨c1, c2, c3, c4, c5⟩ :=
    processNodes_label_aux fs (byIdMap st.nodes) (normLabel n.label) X n.id hL hfresh
      md.nodes 0 acc0 hroot hsame hlbl hbA hnewA
  have hcond0 : List.filter (fun u => u.id == X.id) acc0.updated = [] := rfl
  rw [if_pos hcond0] at c5
  refine ⟨?_, ?_, ?_⟩
  · have h1 : List.lookup n.id (mergeAccOf fs st md).idMap = some X.id := by
      rw [hacc]
      exact c3 ⟨n, hn, rfl⟩
    simp [remapId, h1]
  · intro m hm
    rw [hacc] at hm
    exact (c2 m hm).1
  · have hnodes : (setMindMapFromJSON fs st md).nodes = mergedNodesOf fs st md := rfl
    have hmerged : mergedNodesOf fs st md =
        st.nodes.filter (fun nd => ¬(F.updated.map (·.id)).contains nd.id) ++
          F.updated ++ F.newNodes := by
      simp only [mergedNodesOf, hacc]
    rw [hnodes, hmerged, List.filter_append, List.filter_append]
    have hnewnil : F.newNodes.filter (fun u => u.id == X.id) = [] := by
      refine List.filter_eq_nil_iff.2 ?_
      intro m hm hb
      exact (c2 m hm).2 (by simpa using hb)
    rw [hnewnil]
    rcases hftc : firstTrigger (normLabel n.label) X md.nodes with _ | m
    · rw [hftc] at c5
      have hnotin : X.id ∉ F.updated.map (·.id) := by
        intro hc
        obtain ⟨u, hu, huid⟩ := List.mem_map.1 hc
        have hin : u ∈ F.updated.filter (fun u => u.id == X.id) :=
          List.mem_filter.2 ⟨hu, by simpa using huid⟩
        rw [c5] at hin
        simp at hin
      have hunch : (st.nodes.filter
          (fun nd => ¬(F.updated.map (·.id)).contains nd.id)).filter
            (fun u => u.id == X.id) =
          st.nodes.filter (fun u => u.id == X.id) := by
        refine filter_comm_id ?_
        intro nd hnd2 hid2
        simp only [decide_eq_true_eq]
        simp
        intro x hx hxe
        exact hnotin (List.mem_map.2 ⟨x, hx, hxe.trans hid2⟩)
      rw [hunch, c5, filter_id_single hnd hXst]
      simp
    · rw [hftc] at c5
      have hXdmem : ({ X with data := { X.data with description := m.description } }
          : Node) ∈ F.updated := by
        have hin2 : ({ X with data := { X.data with description := m.description } }
            : Node) ∈ F.updated.filter (fun u => u.id == X.id) := by
          rw [c5]
          exact List.mem_cons_self _ _
        exact List.mem_of_mem_filter hin2
      have hXin : X.id ∈ F.updated.map (·.id) :=
        List.mem_map.2 ⟨_, hXdmem, rfl⟩
      have hunch : (st.nodes.filter
          (fun nd => ¬(F.updated.map (·.id)).contains nd.id)).filter
            (fun u => u.id == X.id) = [] := by
        refine List.filter_eq_nil_iff.2 ?_
        intro a ha hb
        obtain ⟨hast, hPa⟩ := List.mem_filter.1 ha
        have haid : a.id = X.id := by simpa using hb
        simp at hPa
        exact hPa _ hXdmem haid.symm
      rw [hunch, c5]
      simp

def c6Md : MapData := ⟨[⟨"p1", "tech stack ", "new", none⟩], [], []⟩

lemma newIdAt_ne_of_head (fs2 : FreshSrc) (i : Nat) (x : String)
    (hx : x.data.head? ≠ some 'n') : newIdAt fs2 i ≠ x := by
  intro h
  apply hx
  rw [← h]
  rfl

theorem merge_label_dedup_witness :
    remapId (mergeAccOf fsW ⟨[c6X], []⟩ c6Md).idMap "p1" = c6X.id ∧
    (∀ m ∈ (mergeAccOf fsW ⟨[c6X], []⟩ c6Md).newNodes,
      normLabel m.data.label ≠ normLabel "tech stack ") ∧
    (setMindMapFromJSON fsW ⟨[c6X], []⟩ c6Md).nodes.filter
        (fun u => u.id == c6X.id) =
      (match firstTrigger (normLabel "tech stack ") c6X c6Md.nodes with
       | some m => [{ c6X with data := { c6X.data with description := m.description } }]
       | none => [c6X]) :=
  merge_label_dedup fsW ⟨[c6X], []⟩ c6Md ⟨"p1", "tech stack ", "new", none⟩ c6X
    (by decide) rfl (List.mem_cons_self _ _) (by decide) (by decide) (by decide)
    (by decide) (fun i => newIdAt_ne_of_head fsW i "x" (by decide))

end IdeaAi
